import Mathlib

/-!
Verification of the register-mask data structure (`RegMask`,
src/hotspot/share/opto/regmask.hpp), the ZGC C2 dominance-based barrier
elision analysis and the backward liveness fixpoint
(src/hotspot/share/gc/z/c2/zBarrierSetC2.cpp).

The development is a shallow embedding: machine words of the C++
implementation (`uintptr_t` on an LP64 platform) are modelled as `Nat`
with all bit manipulation done through `Nat` bitwise operations on the
low 64 bits, arrays of words are modelled as functions `Nat → Nat`
together with an explicit word count, and register identifiers
(`OptoReg::Name`, a C `int`) are modelled as `Int`.
-/

set_option maxHeartbeats 1600000

namespace RegMaskModel

/-- `BitsPerWord` of the LP64 platform: a mask word is a `uintptr_t`. -/
def BitsPerWord : Nat := 64

/-- `_RM_SIZE`, the statically allocated base size of a register mask in
64-bit words.  The value is generated by the ADLC per platform; the
development only relies on it being positive, and fixes a representative
value so that all definitions stay executable. -/
def RM_SIZE : Nat := 4

/-- The value of a mask word after `memset` with `0xFF` bytes: all 64 bits
set. -/
def allOnes : Nat := 2 ^ 64 - 1

/-- A word filled by `_set_range` from a byte `value` (the code only ever
passes `0` or `0xFF`). -/
def fillWord (value : Nat) : Nat := if value = 0 then 0 else allOnes

/-- The state of a `RegMask`: the word array (`_RM_UP`/`_RM_UP_EXT`,
modelled as a single function; entries at indices `≥ rm_size` are
unreachable junk, exactly as memory past the allocated arrays is in the
C++ code), the current size in words (`_rm_size`), the word offset
(`_offset`), the all-stack flag (`_all_stack`) and the two watermarks
(`_lwm`/`_hwm`). -/
structure RegMask where
  words : Nat → Nat
  rm_size : Nat
  offset : Nat
  all_stack : Bool
  lwm : Nat
  hwm : Nat

namespace RegMask

/-- `offset_bits()`: the offset scaled to bits. -/
def offset_bits (m : RegMask) : Nat := m.offset * BitsPerWord

/-- `rm_size_bits()`: the current capacity in bits. -/
def rm_size_bits (m : RegMask) : Nat := m.rm_size * BitsPerWord

/-- `_rm_max()`: the maximum valid word index. -/
def rm_max (m : RegMask) : Nat := m.rm_size - 1

/-- `valid_watermarks()`: both watermarks are strictly below the current
word count and every word strictly below `_lwm` or strictly above `_hwm`
is zero. -/
def valid_watermarks (m : RegMask) : Prop :=
  m.hwm < m.rm_size ∧ m.lwm < m.rm_size ∧
    ∀ i, i < m.rm_size → (i < m.lwm ∨ m.hwm < i) → m.words i = 0

instance (m : RegMask) : Decidable m.valid_watermarks := by
  unfold valid_watermarks; infer_instance

/-- `RegMask::Member(reg, include_all_stack)`: offset-adjust the id, reject
negative ids, consult the all-stack flag (only when requested) beyond the
current capacity, otherwise test the stored bit. -/
def Member (m : RegMask) (reg : Int) (include_all_stack : Bool) : Bool :=
  let r : Int := reg - (m.offset_bits : Int)
  if r < 0 then false
  else if (m.rm_size_bits : Int) ≤ r then
    (if include_all_stack then m.all_stack else false)
  else (m.words (r.toNat / BitsPerWord)).testBit (r.toNat % BitsPerWord)

/-- `RegMask::Member_including_AllStack(reg)`. -/
def Member_including_AllStack (m : RegMask) (reg : Int) : Bool :=
  m.Member reg true

/-- `_set_range(start, value, length)`: overwrite the words in
`[start, start + length)` with the fill byte pattern. -/
def set_range (m : RegMask) (start : Nat) (value : Nat) (length : Nat) : RegMask :=
  { m with words := fun i =>
      (if start ≤ i ∧ i < start + length then fillWord value else m.words i) }

/-- `round_up_power_of_2`: the least power of two that is `≥ n`. -/
def round_up_power_of_2 (n : Nat) : Nat := 2 ^ Nat.clog 2 n

/-- `_grow(min_size)` with `init = true`: when the requested size exceeds
the current one, enlarge to the next power of two and initialize the new
words to all-ones (raising `_hwm` to the new maximum) when the all-stack
flag is set, and to zero otherwise. -/
def grow (m : RegMask) (min_size : Nat) : RegMask :=
  if m.rm_size < min_size then
    let new_size := round_up_power_of_2 min_size
    if m.all_stack then
      set_range { m with rm_size := new_size, hwm := new_size - 1 }
        m.rm_size 0xFF (new_size - m.rm_size)
    else
      set_range { m with rm_size := new_size } m.rm_size 0 (new_size - m.rm_size)
  else m

/-- `RegMask::Clear()`: zero all words, reset the watermarks to the empty
convention and clear the all-stack flag.  The offset is kept. -/
def Clear (m : RegMask) : RegMask :=
  { (m.set_range 0 0 m.rm_size) with
      lwm := m.rm_size - 1, hwm := 0, all_stack := false }

/-- `RegMask::Set_All_From_Offset()`: fill every word with ones, widen the
watermarks to the full range and set the all-stack flag. -/
def Set_All_From_Offset (m : RegMask) : RegMask :=
  { (m.set_range 0 0xFF m.rm_size) with
      lwm := 0, hwm := m.rm_size - 1, all_stack := true }

/-- `RegMask::Set_All()`: asserts `_offset == 0` and delegates to
`Set_All_From_Offset`. -/
def Set_All (m : RegMask) : RegMask := m.Set_All_From_Offset

/-- `RegMask::rollover()`: advance the offset by the current word count
and reinitialize to all-set-from-offset.  The code asserts
`is_AllStack_only()` on entry. -/
def rollover (m : RegMask) : RegMask :=
  Set_All_From_Offset { m with offset := m.offset + m.rm_size }

/-- `is_AllStack_only()`: no explicit bit inside the watermark range and
the all-stack flag set. -/
def is_AllStack_only (m : RegMask) : Prop :=
  (∀ i, m.lwm ≤ i → i ≤ m.hwm → m.words i = 0) ∧ m.all_stack = true

instance (m : RegMask) : Decidable m.is_AllStack_only := by
  unfold is_AllStack_only
  have : Decidable (∀ i, m.lwm ≤ i → i ≤ m.hwm → m.words i = 0) := by
    have : (∀ i, m.lwm ≤ i → i ≤ m.hwm → m.words i = 0) ↔
        (∀ i, i < m.hwm + 1 → (m.lwm ≤ i → m.words i = 0)) := by
      constructor
      · intro h i hi hli; exact h i hli (by omega)
      · intro h i hli hhi; exact h i (by omega) hli
    exact decidable_of_iff _ this.symm
  infer_instance

/-- `RegMask::Insert(reg)`: offset-adjust (the code asserts the result is
nonnegative), grow on demand, widen the watermarks to cover the word index
and set the bit. -/
def Insert (m : RegMask) (reg : Int) : RegMask :=
  let r : Nat := (reg - (m.offset_bits : Int)).toNat
  let index := r / BitsPerWord
  let m1 := m.grow (index + 1)
  let m2 := { m1 with
      hwm := if m1.hwm < index then index else m1.hwm
      lwm := if index < m1.lwm then index else m1.lwm }
  { m2 with words := fun i =>
      (if i = index then m2.words index ||| 2 ^ (r % BitsPerWord)
       else m2.words i) }

/-- `RegMask::Remove(reg)`: offset-adjust (the code asserts
`0 ≤ reg - offset_bits < rm_size_bits`) and clear the bit.  No growth, no
watermark or flag update. -/
def Remove (m : RegMask) (reg : Int) : RegMask :=
  let r : Nat := (reg - (m.offset_bits : Int)).toNat
  let index := r / BitsPerWord
  { m with words := fun i =>
      (if i = index then Nat.ldiff (m.words index) (2 ^ (r % BitsPerWord))
       else m.words i) }

/-- The semantic guard of the asserts in `RegMask::Remove`: the adjusted
id is nonnegative and strictly inside the current capacity.  Violating it
makes the word access in `Remove` an out-of-bounds array access. -/
def remove_asserts_ok (m : RegMask) (reg : Int) : Prop :=
  (m.offset_bits : Int) ≤ reg ∧ reg - (m.offset_bits : Int) < (m.rm_size_bits : Int)

instance (m : RegMask) (reg : Int) : Decidable (m.remove_asserts_ok reg) := by
  unfold remove_asserts_ok; infer_instance

/-- `uintptr_t(-1) << k` for `k < 64`: all bits from `k` to `63` set. -/
def highOnes (k : Nat) : Nat := (2 ^ (64 - k) - 1) * 2 ^ k

/-- `RegMask::Set_All_From(reg)`: grow to cover the adjusted id, fill its
word from the bit position upward, fill all later words entirely, lower
`_lwm` to the word index if needed, raise `_hwm` to the maximum and set the
all-stack flag. -/
def Set_All_From (m : RegMask) (reg : Int) : RegMask :=
  let r : Nat := (reg - (m.offset_bits : Int)).toNat
  let index := r / BitsPerWord
  let m1 := m.grow (index + 1)
  let m2 := { m1 with words := fun i =>
      (if i = index then m1.words index ||| highOnes (r % BitsPerWord)
       else m1.words i) }
  let m3 := if index < m2.rm_size - 1 then
      m2.set_range (index + 1) 0xFF (m2.rm_size - 1 - index)
    else m2
  { m3 with
      lwm := if index < m3.lwm then index else m3.lwm
      hwm := m3.rm_size - 1
      all_stack := true }

/-- `RegMask::OR(rm)`: grow to the other mask's size, widen both
watermarks, or the overlapping words, fill the gap with ones when the
other mask is smaller and has the all-stack flag, and or the flags. -/
def OR (m rm : RegMask) : RegMask :=
  let m1 := m.grow rm.rm_size
  let lwm := if rm.lwm < m1.lwm then rm.lwm else m1.lwm
  let hwm := if m1.hwm < rm.hwm then rm.hwm else m1.hwm
  let m2 := { m1 with
      lwm := lwm
      hwm := hwm
      words := fun i =>
        (if lwm ≤ i ∧ i ≤ hwm ∧ i < rm.rm_size then m1.words i ||| rm.words i
         else m1.words i) }
  let m3 := if rm.all_stack = true ∧ rm.rm_size < m2.rm_size then
      { (m2.set_range rm.rm_size 0xFF (m2.rm_size - rm.rm_size)) with
          hwm := m2.rm_size - 1 }
    else m2
  { m3 with all_stack := m3.all_stack || rm.all_stack }

/-- `RegMask::AND(rm)`: grow to the other mask's size, and the words in
the watermark range, zero the gap when the other mask is smaller without
the all-stack flag, narrow the watermarks, and and the flags. -/
def AND (m rm : RegMask) : RegMask :=
  let m1 := m.grow rm.rm_size
  let m2 := { m1 with words := fun i =>
      (if m1.lwm ≤ i ∧ i ≤ m1.hwm ∧ i < rm.rm_size then
        m1.words i &&& rm.words i
       else m1.words i) }
  let m3 := if rm.all_stack = false ∧ rm.rm_size - 1 < m2.hwm then
      { (m2.set_range rm.rm_size 0 (m2.hwm - (rm.rm_size - 1))) with
          hwm := rm.rm_size - 1 }
    else m2
  let m4 := { m3 with lwm := if m3.lwm < rm.lwm then rm.lwm else m3.lwm }
  let m5 := if rm.hwm < m4.hwm ∧ ¬(rm.all_stack = true ∧ rm.rm_size - 1 < m4.hwm) then
      { m4 with hwm := rm.hwm }
    else m4
  { m5 with all_stack := m5.all_stack && rm.all_stack }

/-- `RegMask::SUBTRACT(rm)`: grow to the other mask's size, clear the bits
of the other mask inside the intersection of the watermark ranges, zero
the gap when the other mask is smaller with the all-stack flag, and keep
the flag only when the other mask's flag is unset. -/
def SUBTRACT (m rm : RegMask) : RegMask :=
  let m1 := m.grow rm.rm_size
  let hwm := if rm.hwm < m1.hwm then rm.hwm else m1.hwm
  let lwm := if m1.lwm < rm.lwm then rm.lwm else m1.lwm
  let m2 := { m1 with words := fun i =>
      (if lwm ≤ i ∧ i ≤ hwm then Nat.ldiff (m1.words i) (rm.words i)
       else m1.words i) }
  let m3 := if rm.all_stack = true ∧ rm.rm_size - 1 < m2.hwm then
      { (m2.set_range rm.rm_size 0 (m2.hwm - (rm.rm_size - 1))) with
          hwm := rm.rm_size - 1 }
    else m2
  { m3 with all_stack := m3.all_stack && !rm.all_stack }

/-- `RegMask::SUBTRACT_inner(rm)`: like `SUBTRACT` but translating between
possibly different offsets, touching only the overlap of the watermark
ranges and ignoring both all-stack flags. -/
def SUBTRACT_inner (m rm : RegMask) : RegMask :=
  let d : Int := (m.offset : Int) - (rm.offset : Int)
  let hwm : Int := min (m.hwm : Int) ((rm.hwm : Int) - d)
  let lwm : Int := max (m.lwm : Int) ((rm.lwm : Int) - d)
  { m with words := fun i =>
      (if lwm ≤ (i : Int) ∧ (i : Int) ≤ hwm then
        Nat.ldiff (m.words i) (rm.words ((i : Int) + d).toNat)
       else m.words i) }

/-- The default constructor `RegMask()`: base size, zero offset, no
all-stack flag, all words zero, empty watermark convention. -/
def emptyMask : RegMask :=
  { words := fun _ => 0, rm_size := RM_SIZE, offset := 0, all_stack := false,
    lwm := RM_SIZE - 1, hwm := 0 }

/-- An empty mask whose offset has been positioned at `off` (the state a
default-constructed mask reaches after rollovers and `Clear`): used as the
`∅` of the register-set algebra at a given offset. -/
def emptyAt (off : Nat) : RegMask := { emptyMask with offset := off }

/-- The bit of the word array covering offset-adjusted id `r`. -/
def bitAt (m : RegMask) (r : Nat) : Bool :=
  (m.words (r / BitsPerWord)).testBit (r % BitsPerWord)

/-- Offset-adjusted membership semantics: the explicit bit inside the
current capacity, the all-stack flag beyond it. -/
def semN (m : RegMask) (r : Nat) : Bool :=
  if r < m.rm_size_bits then m.bitAt r else m.all_stack

/-- Semantic equality of register sets: agreement of membership (through
`Member_including_AllStack`) on every id, and agreement of the
all-beyond-capacity flag. -/
def maskEq (a b : RegMask) : Prop :=
  (∀ id : Int, a.Member_including_AllStack id = b.Member_including_AllStack id) ∧
    a.all_stack = b.all_stack

end RegMask

end RegMaskModel

/-!
Model of `ZBarrierSetC2::compute_liveness_at_stubs`
(src/hotspot/share/gc/z/c2/zBarrierSetC2.cpp): a backward may-be-live
dataflow fixpoint over the scheduled CFG.  Register sets are modelled as
`Finset Nat`: the `RegMask` operations the pass uses — `OR`, `SUBTRACT`,
`Insert`, `Remove`, `is_NotEmpty` — act as set union, difference,
insertion, removal and nonemptiness on the represented membership sets,
exactly as established by the semantic characterization lemmas of the
`RegMaskModel` development (`OR_semN`, `SUBTRACT_semN`, `Insert_semN`,
`Remove_semN`).  The worklist is a stack (`Block_List` pushes and pops at
the end); the claims proved below hold for every processing order.
-/

namespace LivenessModel

/-- An instruction of a scheduled block: its stable node index (`_idx`),
the registers it defines (`get_reg_first/second` after `refine_register`),
the registers its inputs occupy, and whether the barrier-set state tracks
liveness for it (`ZBarrierSetC2State::live(node)` returns a non-null
`RegMask`, i.e. the node is an anchor). -/
structure Instr where
  id : Nat
  defs : List Nat
  uses : List Nat
  tracksLiveness : Bool

/-- The scheduled CFG as the liveness pass consumes it: a block count and,
per block id (`_pre_order`), the instruction sequence in forward order and
the successor/predecessor block ids. -/
structure LCFG where
  nblocks : Nat
  instrs : Nat → List Instr
  succs : Nat → List Nat
  preds : Nat → List Nat

/-- The mutable state of the fixpoint: the stored per-block live-in sets
(the `live` array), the per-anchor accumulated live sets (the masks held
by `ZBarrierSetC2State`), and the block worklist. -/
structure LState where
  live : Nat → Finset Nat
  acc : Nat → Finset Nat
  worklist : List Nat

/-- The per-instruction backward transfer: first remove the defined
registers, then add the used registers. -/
def transfer (i : Instr) (s : Finset Nat) : Finset Nat :=
  (s \ i.defs.toFinset) ∪ i.uses.toFinset

/-- The backward scan over a block body (the instruction list is passed
already reversed): update the running live set per instruction and, when
the instruction tracks liveness, union the running set into its
accumulated set (`regs->OR(new_live)`). -/
def scan : List Instr → Finset Nat → (Nat → Finset Nat) →
    Finset Nat × (Nat → Finset Nat)
  | [], s, a => (s, a)
  | i :: rest, s, a =>
      let s' := transfer i s
      let a' := if i.tracksLiveness then
          Function.update a i.id (a i.id ∪ s')
        else a
      scan rest s' a'

/-- One iteration of the worklist loop: pop a block, take the union of the
successors' stored live-ins, scan the block backwards, and if the
resulting live-in adds bits not present in the stored live-in
(`new_live.SUBTRACT(old_live); new_live.is_NotEmpty()`), merge them in and
push all predecessors. -/
def lstep (g : LCFG) (st : LState) : LState :=
  match st.worklist with
  | [] => st
  | b :: ws =>
      let new0 := (g.succs b).foldl (fun s sb => s ∪ st.live sb) ∅
      let res := scan (g.instrs b).reverse new0 st.acc
      let diff := res.1 \ st.live b
      if diff.Nonempty then
        { live := Function.update st.live b (st.live b ∪ diff)
          acc := res.2
          worklist := g.preds b ++ ws }
      else
        { st with acc := res.2, worklist := ws }

/-- Iterated worklist steps. -/
def iterateN (g : LCFG) : Nat → LState → LState
  | 0, st => st
  | n + 1, st => iterateN g n (lstep g st)

/-- The initial state: empty live-ins and accumulators, and every block on
the worklist. -/
def initState (g : LCFG) : LState :=
  { live := fun _ => ∅, acc := fun _ => ∅, worklist := List.range g.nblocks }

/-- Well-formedness of the CFG for a register domain bound `R`: every used
register id is below `R`, and predecessor/successor ids are genuine block
ids. -/
def wfCFG (g : LCFG) (R : Nat) : Prop :=
  ∀ b, b < g.nblocks →
    (∀ i ∈ g.instrs b, ∀ u ∈ i.uses, u < R) ∧
    (∀ p ∈ g.preds b, p < g.nblocks) ∧
    (∀ sb ∈ g.succs b, sb < g.nblocks)

/-- The loop invariant: worklist entries are block ids and stored live-ins
stay within the register domain. -/
def inv (g : LCFG) (R : Nat) (st : LState) : Prop :=
  (∀ b ∈ st.worklist, b < g.nblocks) ∧
  (∀ b, st.live b ⊆ Finset.range R)

/-- The maximal predecessor-list length over all blocks. -/
def maxPreds (g : LCFG) : Nat :=
  (Finset.range g.nblocks).sup (fun b => (g.preds b).length)

/-- The termination measure: total remaining growth capacity of the
stored live-ins, weighted to dominate a single worklist pop/push. -/
def measureL (g : LCFG) (R : Nat) (st : LState) : Nat :=
  (∑ b ∈ Finset.range g.nblocks, (R - (st.live b).card)) * (maxPreds g + 1)
    + st.worklist.length

/-- A two-block example CFG used to instantiate the liveness theorems. -/
def exampleCFG : LCFG :=
  { nblocks := 2
    instrs := fun b => if b = 0 then
        [{ id := 0, defs := [1], uses := [2], tracksLiveness := true }]
      else [{ id := 1, defs := [], uses := [1], tracksLiveness := false }]
    succs := fun b => if b = 0 then [1] else []
    preds := fun b => if b = 1 then [0] else [] }

instance (g : LCFG) (R : Nat) : Decidable (wfCFG g R) := by
  unfold wfCFG; infer_instance

end LivenessModel

/-!
Model of the decision procedure of the late barrier-elision pass
(`ZBarrierSetC2::process_access` and the candidate-dominator loop of
`ZBarrierSetC2::analyze_dominating_barriers_impl`,
src/hotspot/share/gc/z/c2/zBarrierSetC2.cpp).
-/

namespace ElisionModel


/-- The barrier-data flags of an access relevant to the late pass. -/
structure BarrierData where
  elided : Bool
  domElided : Bool
  sabElided : Bool
deriving DecidableEq

/-- `mark_mach_barrier_dom_elided`: adds `ZBarrierElided | ZBarrierDomElided`. -/
def mark_mach_barrier_dom_elided (f : BarrierData) : BarrierData :=
  { f with elided := true, domElided := true }

/-- `mark_mach_barrier_sab_elided`: adds `ZBarrierElided | ZBarrierSABElided`. -/
def mark_mach_barrier_sab_elided (f : BarrierData) : BarrierData :=
  { f with elided := true, sabElided := true }

/-- An access as `process_access` inspects it: its barrier data, the
concrete offset value together with the unknown-offset sentinel flag
(`Type::is_unknown(access_offset)`), and the type offset of its address
input (`access->in(2)->bottom_type()->is_ptr()->_offset`), nonzero for a
derived (interior) pointer. -/
structure AccessInfo where
  flags : BarrierData
  offsetVal : Int
  offsetUnknown : Bool
  inPtrOffset : Int

/-- A `SafepointAccessRecord`: the discovered safepoint
(`MachSafePointNode`) and the def-chain node (`mem`) it was discovered
against. -/
structure SAR where
  msfp : Nat
  mem : Nat
deriving DecidableEq

/-- `offset_is_short`: `(access_offset >> 16) == 0`; the arithmetic right
shift of the signed `intptr_t` equals flooring division by `2^16`. -/
def offset_is_short (o : Int) : Bool := decide (Int.fdiv o 65536 = 0)

/-- The result of `process_access`: the access's barrier data on return,
the `(safepoint, mem)` pairs passed to
`record_safepoint_attached_barrier` in call order, whether the assert in
`mark_mach_barrier_sab_bailout` (`!has_barrier_flag(ZBarrierElided)`) was
violated, and the contents of `access_list` on return (the function pops
every element it consumes or discards). -/
structure PAResult where
  flags : BarrierData
  recorded : List SAR
  assertViolated : Bool
  finalList : List SAR
deriving DecidableEq

/-- `ZBarrierSetC2::process_access`: empty safepoint list ⇒ mark the
access dominator-elided (when the dominator-elimination option is on);
nonempty list ⇒ under the safepoint-attached-barriers option, mark
safepoint-attached-elided and record one `SafepointAccessRecord` per list
entry (popping from the end) when the offset is concrete, fits 16 bits
and the access is not through a derived pointer, and otherwise bail out
(retaining the barrier) and discard the list. -/
def process_access (useDomOpt useSABOpt : Bool) (acc : AccessInfo)
    (access_list : List SAR) : PAResult :=
  let is_derived : Bool := decide (acc.inPtrOffset ≠ 0)
  let short : Bool := offset_is_short acc.offsetVal
  let known : Bool := !acc.offsetUnknown
  if access_list.length = 0 then
    if useDomOpt then
      { flags := mark_mach_barrier_dom_elided acc.flags, recorded := []
        assertViolated := false, finalList := access_list }
    else
      { flags := acc.flags, recorded := []
        assertViolated := false, finalList := access_list }
  else if useSABOpt then
    if known && short && !is_derived then
      { flags := mark_mach_barrier_sab_elided acc.flags
        recorded := access_list.reverse
        assertViolated := false, finalList := [] }
    else
      { flags := acc.flags, recorded := []
        assertViolated := acc.flags.elided, finalList := [] }
  else
    { flags := acc.flags, recorded := [], assertViolated := false
      finalList := [] }

/-- A candidate dominator as the inner loop of
`analyze_dominating_barriers_impl` sees it for a fixed access: whether the
structural checks of step 2 (self-check, allocation/access address
identity, concrete offsets, block dominance and in-block position) accept
it — these checks read only the CFG and the address chains, never the
access's barrier data — and the safepoint list that the chain walk of
step 3 then discovers between it and the access. -/
structure DomCandidate where
  qualifies : Bool
  safepoints : List SAR

/-- The state threaded through the candidate loop for one access. -/
structure LoopState where
  flags : BarrierData
  recorded : List SAR
  assertViolated : Bool
  processCount : Nat
deriving DecidableEq

/-- One iteration of the candidate loop: a non-qualifying candidate is
skipped by one of the `continue`s; a qualifying one runs the safepoint
walk and `process_access` on the access's current barrier data. -/
def domLoopStep (useDomOpt useSABOpt : Bool) (acc0 : AccessInfo)
    (st : LoopState) (dom : DomCandidate) : LoopState :=
  if dom.qualifies then
    let r := process_access useDomOpt useSABOpt { acc0 with flags := st.flags }
      dom.safepoints
    { flags := r.flags, recorded := st.recorded ++ r.recorded
      assertViolated := st.assertViolated || r.assertViolated
      processCount := st.processCount + 1 }
  else st

/-- The candidate-dominator loop of `analyze_dominating_barriers_impl`
for one access: every qualifying candidate in collection order is
processed.  The loop body contains no exit after a resolution and no
check of the access's elided flag (that check sits only at the top of the
per-access loop, before any candidate is tried). -/
def domLoop (useDomOpt useSABOpt : Bool) (acc0 : AccessInfo)
    (doms : List DomCandidate) : LoopState :=
  doms.foldl (domLoopStep useDomOpt useSABOpt acc0)
    { flags := acc0.flags, recorded := [], assertViolated := false
      processCount := 0 }

end ElisionModel

/-!
Model of the bounded backward walk of an access's address-definition
chain in `ZBarrierSetC2::analyze_dominating_barriers_impl` and of
`next_def` (src/hotspot/share/gc/z/c2/zBarrierSetC2.cpp).
-/

namespace WalkModel

/-- Node kinds relevant to the walk: `next_def` looks through
`Op_CheckCastPP` and spill copies; a Phi (allocation) terminates the
walk; anything else makes `next_def` fail its guarantee. -/
inductive NodeKind
  | phi
  | checkCastPP
  | spillCopy
  | other
deriving DecidableEq

/-- The definition graph seen by the walk: each node's kind and its first
input `in(1)`, which is the edge `next_def` follows. -/
structure DefGraph where
  kind : Nat → NodeKind
  input : Nat → Nat

/-- `MaxNodeLimit`, the C2 node budget used as the hard iteration bound
of the walk (`guarantee(limit < MaxNodeLimit, ...)`). -/
def MaxNodeLimit : Nat := 80000

/-- The outcome of the walk: the loop breaks at a Phi (allocation) or at
the dominator's address definition, or the compilation unit aborts on one
of the two guarantees — `next_def` hit a node it cannot look through, or
the iteration budget was exhausted.  There is no recoverable-failure
constructor: both failures are fatal internal errors. -/
inductive WalkOutcome
  | reachedPhi (n : Nat)
  | reachedDom (n : Nat)
  | fatalNextDef (n : Nat)
  | fatalLimit
deriving DecidableEq

/-- `next_def`: follow `in(1)` through a CheckCastPP or spill copy;
`none` models the fatal `guarantee(0, "Shouldn't reach here.")`. -/
def next_def (g : DefGraph) (n : Nat) : Option Nat :=
  match g.kind n with
  | .checkCastPP => some (g.input n)
  | .spillCopy => some (g.input n)
  | _ => none

/-- The chain-walk loop, with `fuel` the remaining iteration budget
(`MaxNodeLimit - 1 - limit` successful `next_def` steps remain): check
the Phi and dominator exits for the current chain node, then step through
`next_def`, failing fatally when the budget is exhausted. -/
def chainWalk (g : DefGraph) (dom_mem : Option Nat) :
    Nat → Nat → WalkOutcome
  | 0, n =>
    if g.kind n = .phi then .reachedPhi n
    else if some n = dom_mem then .reachedDom n
    else match next_def g n with
      | none => .fatalNextDef n
      | some _ => .fatalLimit
  | fuel' + 1, n =>
    if g.kind n = .phi then .reachedPhi n
    else if some n = dom_mem then .reachedDom n
    else match next_def g n with
      | none => .fatalNextDef n
      | some n' => chainWalk g dom_mem fuel' n'

/-- The whole walk from the access's address definition: the C++ loop
increments `limit` after every `next_def` step and dies when
`limit ≥ MaxNodeLimit`, so exactly `MaxNodeLimit - 1` steps may
complete. -/
def walk (g : DefGraph) (dom_mem : Option Nat) (start : Nat) : WalkOutcome :=
  chainWalk g dom_mem (MaxNodeLimit - 1) start

/-- The pure address-definition chain: the nodes the walk visits. -/
def chainSeq (g : DefGraph) (start : Nat) : Nat → Nat
  | 0 => start
  | t + 1 => g.input (chainSeq g start t)

/-- A chain node at which the walk stops normally: an allocation Phi or
the dominator's address definition. -/
def stops (g : DefGraph) (dom_mem : Option Nat) (n : Nat) : Prop :=
  g.kind n = .phi ∨ some n = dom_mem

instance (g : DefGraph) (dm : Option Nat) (n : Nat) :
    Decidable (stops g dm n) := by
  unfold stops; infer_instance

/-- A chain node `next_def` can look through: a copy or cast alias. -/
def looksThrough (g : DefGraph) (n : Nat) : Prop :=
  g.kind n = .checkCastPP ∨ g.kind n = .spillCopy

instance (g : DefGraph) (n : Nat) : Decidable (looksThrough g n) := by
  unfold looksThrough; infer_instance

end WalkModel

namespace RegMaskModel

namespace RegMask

theorem member_true_eq_semN (m : RegMask) (reg : Int) :
    m.Member reg true =
      if reg < (m.offset_bits : Int) then false
      else m.semN (reg - (m.offset_bits : Int)).toNat := by
  unfold Member semN bitAt
  by_cases hneg : reg - (m.offset_bits : Int) < 0
  · rw [if_pos hneg, if_pos (by omega : reg < (m.offset_bits : Int))]
  · rw [if_neg hneg, if_neg (by omega : ¬ reg < (m.offset_bits : Int))]
    by_cases hc : (m.rm_size_bits : Int) ≤ reg - (m.offset_bits : Int)
    · rw [if_pos hc,
        if_neg (by omega : ¬ (reg - (m.offset_bits : Int)).toNat < m.rm_size_bits)]
      simp
    · rw [if_neg hc,
        if_pos (by omega : (reg - (m.offset_bits : Int)).toNat < m.rm_size_bits)]

theorem fillWord_zero_testBit (k : Nat) : (fillWord 0).testBit k = false := by
  simp [fillWord, Nat.zero_testBit]

theorem fillWord_FF_testBit {k : Nat} (hk : k < 64) :
    (fillWord 0xFF).testBit k = true := by
  have : fillWord 0xFF = 2 ^ 64 - 1 := by norm_num [fillWord, allOnes]
  rw [this, Nat.testBit_two_pow_sub_one]
  simpa using hk

theorem mod_bpw_lt (r : Nat) : r % BitsPerWord < 64 :=
  Nat.mod_lt _ (by norm_num [BitsPerWord])

theorem div_bpw_lt {r s : Nat} : r / BitsPerWord < s ↔ r < s * BitsPerWord := by
  rw [Nat.div_lt_iff_lt_mul (by norm_num [BitsPerWord] : 0 < BitsPerWord)]

theorem grow_rm_size (m : RegMask) (s : Nat) :
    m.rm_size ≤ (m.grow s).rm_size ∧ s ≤ (m.grow s).rm_size := by
  unfold grow
  split
  · have hs : s ≤ round_up_power_of_2 s := Nat.le_pow_clog (by norm_num) s
    split <;> simp [set_range] <;> omega
  · omega

theorem grow_offset (m : RegMask) (s : Nat) : (m.grow s).offset = m.offset := by
  unfold grow; split <;> [split <;> simp [set_range]; rfl]

theorem grow_all_stack (m : RegMask) (s : Nat) :
    (m.grow s).all_stack = m.all_stack := by
  unfold grow; split <;> [split <;> simp_all [set_range]; rfl]

theorem grow_semN (m : RegMask) (s : Nat) (r : Nat) :
    (m.grow s).semN r = m.semN r := by
  unfold grow
  split
  · case _ hlt =>
    have hs : m.rm_size < round_up_power_of_2 s := by
      calc m.rm_size < s := hlt
        _ ≤ _ := Nat.le_pow_clog (by norm_num) s
    set ns := round_up_power_of_2 s with hns
    have hmod := mod_bpw_lt r
    split
    · case _ hstk =>
      simp only [semN, bitAt, set_range, rm_size_bits, hstk]
      by_cases h1 : r < m.rm_size * BitsPerWord
      · have : r / BitsPerWord < m.rm_size := div_bpw_lt.mpr h1
        have h2 : r < ns * BitsPerWord := by
          have := Nat.mul_le_mul_right BitsPerWord (le_of_lt hs); omega
        rw [if_pos h2, if_pos h1]
        have : ¬ (m.rm_size ≤ r / BitsPerWord ∧
            r / BitsPerWord < m.rm_size + (ns - m.rm_size)) := by omega
        rw [if_neg this]
      · rw [if_neg h1]
        by_cases h2 : r < ns * BitsPerWord
        · rw [if_pos h2]
          have hj1 : ¬ (r / BitsPerWord < m.rm_size) := fun h => h1 (div_bpw_lt.mp h)
          have hj2 : r / BitsPerWord < ns := div_bpw_lt.mpr h2
          have : m.rm_size ≤ r / BitsPerWord ∧
              r / BitsPerWord < m.rm_size + (ns - m.rm_size) := by omega
          rw [if_pos this]
          exact fillWord_FF_testBit hmod
        · rw [if_neg h2]
    · case _ hstk =>
      have hstk' : m.all_stack = false := by
        revert hstk; cases m.all_stack <;> simp
      simp only [semN, bitAt, set_range, rm_size_bits, hstk']
      by_cases h1 : r < m.rm_size * BitsPerWord
      · have hj : r / BitsPerWord < m.rm_size := div_bpw_lt.mpr h1
        have h2 : r < ns * BitsPerWord := by
          have := Nat.mul_le_mul_right BitsPerWord (le_of_lt hs); omega
        rw [if_pos h2, if_pos h1]
        have : ¬ (m.rm_size ≤ r / BitsPerWord ∧
            r / BitsPerWord < m.rm_size + (ns - m.rm_size)) := by omega
        rw [if_neg this]
      · rw [if_neg h1]
        by_cases h2 : r < ns * BitsPerWord
        · rw [if_pos h2]
          have : m.rm_size ≤ r / BitsPerWord ∧
              r / BitsPerWord < m.rm_size + (ns - m.rm_size) := by
            have hj1 : ¬ (r / BitsPerWord < m.rm_size) := fun h => h1 (div_bpw_lt.mp h)
            have hj2 : r / BitsPerWord < ns := div_bpw_lt.mpr h2
            omega
          rw [if_pos this]
          exact fillWord_zero_testBit _
        · rw [if_neg h2]
  · rfl

theorem grow_valid (m : RegMask) (s : Nat) (h : m.valid_watermarks) :
    (m.grow s).valid_watermarks := by
  obtain ⟨hh, hl, hz⟩ := h
  unfold grow
  split
  · case _ hlt =>
    have hs : m.rm_size < round_up_power_of_2 s := by
      calc m.rm_size < s := hlt
        _ ≤ _ := Nat.le_pow_clog (by norm_num) s
    set ns := round_up_power_of_2 s with hns
    split
    · refine ⟨by simp [set_range]; omega, by simp [set_range]; omega, ?_⟩
      intro i hi hout
      simp only [set_range] at hi hout ⊢
      rcases hout with hout | hout
      · have hi' : i < m.rm_size := by omega
        have : ¬ (m.rm_size ≤ i ∧ i < m.rm_size + (ns - m.rm_size)) := by omega
        rw [if_neg this]
        exact hz i hi' (Or.inl hout)
      · omega
    · refine ⟨by simp [set_range]; omega, by simp [set_range]; omega, ?_⟩
      intro i hi hout
      simp only [set_range] at hi hout ⊢
      by_cases hgap : m.rm_size ≤ i ∧ i < m.rm_size + (ns - m.rm_size)
      · rw [if_pos hgap]; rfl
      · rw [if_neg hgap]
        have hi' : i < m.rm_size := by omega
        exact hz i hi' hout
  · exact ⟨hh, hl, hz⟩

theorem ldiff_zero_left (b : Nat) : Nat.ldiff 0 b = 0 :=
  Nat.eq_of_testBit_eq (by simp [Nat.testBit_ldiff, Nat.zero_testBit])

theorem Clear_semN (m : RegMask) (r : Nat) : m.Clear.semN r = false := by
  simp only [Clear, set_range, semN, bitAt, rm_size_bits, BitsPerWord]
  split
  · case _ h =>
    rw [if_pos (by omega : 0 ≤ r / 64 ∧ r / 64 < 0 + m.rm_size)]
    exact fillWord_zero_testBit _
  · rfl

theorem Clear_fields (m : RegMask) :
    m.Clear.rm_size = m.rm_size ∧ m.Clear.offset = m.offset ∧
      m.Clear.all_stack = false := by
  refine ⟨rfl, rfl, rfl⟩

theorem Clear_valid (m : RegMask) (h : 0 < m.rm_size) :
    m.Clear.valid_watermarks := by
  refine ⟨by simp [Clear, set_range]; omega, by simp [Clear, set_range]; omega, ?_⟩
  intro i hi _
  simp only [Clear, set_range] at hi ⊢
  rw [if_pos (by omega : 0 ≤ i ∧ i < 0 + m.rm_size)]
  rfl

theorem Set_All_From_Offset_semN (m : RegMask) (r : Nat) :
    m.Set_All_From_Offset.semN r = true := by
  simp only [Set_All_From_Offset, set_range, semN, bitAt, rm_size_bits, BitsPerWord]
  split
  · case _ h =>
    rw [if_pos (by omega : 0 ≤ r / 64 ∧ r / 64 < 0 + m.rm_size)]
    exact fillWord_FF_testBit (by omega : r % 64 < 64)
  · rfl

theorem Set_All_From_Offset_fields (m : RegMask) :
    m.Set_All_From_Offset.rm_size = m.rm_size ∧
      m.Set_All_From_Offset.offset = m.offset ∧
      m.Set_All_From_Offset.all_stack = true := ⟨rfl, rfl, rfl⟩

theorem Set_All_From_Offset_valid (m : RegMask) (h : 0 < m.rm_size) :
    m.Set_All_From_Offset.valid_watermarks := by
  refine ⟨?_, ?_, ?_⟩
  · simp [Set_All_From_Offset, set_range]; omega
  · simp [Set_All_From_Offset, set_range]; omega
  · intro i hi hout
    simp only [Set_All_From_Offset, set_range] at hi hout
    omega

theorem rollover_fields (m : RegMask) :
    m.rollover.rm_size = m.rm_size ∧ m.rollover.offset = m.offset + m.rm_size ∧
      m.rollover.all_stack = true := ⟨rfl, rfl, rfl⟩

theorem rollover_semN (m : RegMask) (r : Nat) : m.rollover.semN r = true :=
  Set_All_From_Offset_semN _ r

theorem rollover_valid (m : RegMask) (h : 0 < m.rm_size) :
    m.rollover.valid_watermarks :=
  Set_All_From_Offset_valid _ h

theorem emptyMask_valid : emptyMask.valid_watermarks := by decide

theorem emptyAt_valid (off : Nat) : (emptyAt off).valid_watermarks := by
  refine ⟨by simp [emptyAt, emptyMask, RM_SIZE], by simp [emptyAt, emptyMask, RM_SIZE], ?_⟩
  intro i _ _; rfl

theorem emptyAt_semN (off : Nat) (r : Nat) : (emptyAt off).semN r = false := by
  simp only [emptyAt, emptyMask, semN, bitAt]
  split <;> simp [Nat.zero_testBit]

theorem Insert_semN (m : RegMask) (reg : Int) (r : Nat) :
    (m.Insert reg).semN r =
      (m.semN r || decide (r = (reg - (m.offset_bits : Int)).toNat)) := by
  have hsem := m.grow_semN ((reg - (m.offset_bits : Int)).toNat / BitsPerWord + 1) r
  have hsz := (m.grow_rm_size ((reg - (m.offset_bits : Int)).toNat / BitsPerWord + 1)).2
  rw [← hsem]
  simp only [Insert]
  generalize m.grow ((reg - (m.offset_bits : Int)).toNat / BitsPerWord + 1) = m1 at *
  generalize hrr : (reg - (m.offset_bits : Int)).toNat = rr at *
  simp only [semN, bitAt, rm_size_bits, BitsPerWord] at *
  by_cases hj : r / 64 = rr / 64
  · have hcap : r < m1.rm_size * 64 := by omega
    rw [if_pos hcap, if_pos hcap, hj, if_pos rfl, Nat.testBit_lor]
    by_cases he : r % 64 = rr % 64
    · have hreq : r = rr := by omega
      rw [he, Nat.testBit_two_pow_self]
      simp [hreq]
    · rw [Nat.testBit_two_pow_of_ne (fun h => he h.symm)]
      have hne : r ≠ rr := fun h => he (by rw [h])
      simp [hne, hj]
  · have hne : r ≠ rr := fun h => hj (by rw [h])
    by_cases hcap : r < m1.rm_size * 64
    · rw [if_pos hcap, if_pos hcap, if_neg hj]
      simp [hne]
    · rw [if_neg hcap, if_neg hcap]
      simp [hne]

theorem Insert_fields (m : RegMask) (reg : Int) :
    (m.Insert reg).offset = m.offset ∧ (m.Insert reg).all_stack = m.all_stack ∧
      m.rm_size ≤ (m.Insert reg).rm_size := by
  unfold Insert
  have h1 := m.grow_offset ((reg - (m.offset_bits : Int)).toNat / BitsPerWord + 1)
  have h2 := m.grow_all_stack ((reg - (m.offset_bits : Int)).toNat / BitsPerWord + 1)
  have h3 := m.grow_rm_size ((reg - (m.offset_bits : Int)).toNat / BitsPerWord + 1)
  exact ⟨h1, h2, h3.1⟩

theorem Insert_valid (m : RegMask) (reg : Int) (h : m.valid_watermarks) :
    (m.Insert reg).valid_watermarks := by
  have hv1 := m.grow_valid ((reg - (m.offset_bits : Int)).toNat / BitsPerWord + 1) h
  have hsz := (m.grow_rm_size ((reg - (m.offset_bits : Int)).toNat / BitsPerWord + 1)).2
  simp only [Insert]
  generalize m.grow ((reg - (m.offset_bits : Int)).toNat / BitsPerWord + 1) = m1 at hv1 hsz
  generalize hrr : (reg - (m.offset_bits : Int)).toNat = rr at *
  obtain ⟨hh1, hl1, hz1⟩ := hv1
  refine ⟨?_, ?_, ?_⟩
  · dsimp only
    split <;> omega
  · dsimp only
    split <;> omega
  · intro i hi hout
    dsimp only at hi hout ⊢
    have hine : i ≠ rr / BitsPerWord := by
      rcases hout with hout | hout
      · split at hout <;> omega
      · split at hout <;> omega
    rw [if_neg hine]
    have hout1 : i < m1.lwm ∨ m1.hwm < i := by
      rcases hout with hout | hout
      · left; split at hout <;> omega
      · right; split at hout <;> omega
    exact hz1 i hi hout1

theorem Remove_semN (m : RegMask) (reg : Int) (hpre : m.remove_asserts_ok reg)
    (r : Nat) :
    (m.Remove reg).semN r =
      (m.semN r && !decide (r = (reg - (m.offset_bits : Int)).toNat)) := by
  obtain ⟨hp1, hp2⟩ := hpre
  simp only [Remove]
  generalize hrr : (reg - (m.offset_bits : Int)).toNat = rr at *
  have hrlt : rr < m.rm_size * 64 := by
    simp only [rm_size_bits, BitsPerWord] at hp2
    omega
  simp only [semN, bitAt, rm_size_bits, BitsPerWord]
  by_cases hcap : r < m.rm_size * 64
  · rw [if_pos hcap, if_pos hcap]
    by_cases hj : r / 64 = rr / 64
    · rw [if_pos hj, hj, Nat.testBit_ldiff]
      by_cases he : r % 64 = rr % 64
      · have hreq : r = rr := by omega
        rw [he, Nat.testBit_two_pow_self]
        simp [hreq, hj]
      · rw [Nat.testBit_two_pow_of_ne (fun h => he h.symm)]
        have hne : r ≠ rr := fun h => he (by rw [h])
        simp [hne, hj]
    · rw [if_neg hj]
      have hne : r ≠ rr := fun h => hj (by rw [h])
      simp [hne]
  · rw [if_neg hcap, if_neg hcap]
    have hne : r ≠ rr := by omega
    simp [hne]

theorem Remove_fields (m : RegMask) (reg : Int) :
    (m.Remove reg).rm_size = m.rm_size ∧ (m.Remove reg).offset = m.offset ∧
      (m.Remove reg).all_stack = m.all_stack := ⟨rfl, rfl, rfl⟩

theorem Remove_valid (m : RegMask) (reg : Int) (h : m.valid_watermarks) :
    (m.Remove reg).valid_watermarks := by
  obtain ⟨hh, hl, hz⟩ := h
  refine ⟨hh, hl, ?_⟩
  intro i hi hout
  simp only [Remove]
  split
  · case _ he =>
    rw [← he]
    rw [hz i hi hout]
    exact ldiff_zero_left _
  · exact hz i hi hout

theorem ite_lt_min (a b : Nat) : (if a < b then a else b) = min a b := by
  split <;> omega

theorem ite_lt_max (a b : Nat) : (if a < b then b else a) = max a b := by
  split <;> omega

theorem allOnes_testBit {k : Nat} (hk : k < 64) : allOnes.testBit k = true := by
  have : allOnes = 2 ^ 64 - 1 := rfl
  rw [this, Nat.testBit_two_pow_sub_one]
  simpa using hk

theorem OR_semN (m rm : RegMask) (hm : m.valid_watermarks)
    (hrm : rm.valid_watermarks) (r : Nat) :
    (m.OR rm).semN r = (m.semN r || rm.semN r) := by
  have hsem := m.grow_semN rm.rm_size r
  have hv1 := m.grow_valid rm.rm_size hm
  have hsz := m.grow_rm_size rm.rm_size
  rw [← hsem]
  simp only [OR, set_range, ite_lt_min, ite_lt_max]
  generalize m.grow rm.rm_size = m1 at *
  obtain ⟨hh1, hl1, hz1⟩ := hv1
  obtain ⟨hh2, hl2, hz2⟩ := hrm
  by_cases hgap : rm.all_stack = true ∧ rm.rm_size < m1.rm_size
  · rw [if_pos hgap]
    simp only [semN, bitAt, rm_size_bits, BitsPerWord]
    rcases Nat.lt_or_ge r (rm.rm_size * 64) with hA | hA
    · have hAm : r < m1.rm_size * 64 := by omega
      rw [if_pos hAm, if_pos hAm, if_pos hA]
      rw [if_neg (by omega : ¬ (rm.rm_size ≤ r / 64 ∧
        r / 64 < rm.rm_size + (m1.rm_size - rm.rm_size)))]
      by_cases hc : min rm.lwm m1.lwm ≤ r / 64 ∧ r / 64 ≤ max m1.hwm rm.hwm ∧
          r / 64 < rm.rm_size
      · rw [if_pos hc, Nat.testBit_lor]
      · rw [if_neg hc]
        rcases (by omega : (r / 64 < m1.lwm ∧ r / 64 < rm.lwm) ∨
            (m1.hwm < r / 64 ∧ rm.hwm < r / 64)) with hlo | hhi
        · rw [hz1 _ (by omega) (Or.inl hlo.1), hz2 _ (by omega) (Or.inl hlo.2)]
          simp [Nat.zero_testBit]
        · rw [hz1 _ (by omega) (Or.inr hhi.1), hz2 _ (by omega) (Or.inr hhi.2)]
          simp [Nat.zero_testBit]
    · rcases Nat.lt_or_ge r (m1.rm_size * 64) with hB | hC
      · rw [if_pos hB, if_pos hB, if_neg (by omega : ¬ r < rm.rm_size * 64)]
        rw [if_pos (by omega : rm.rm_size ≤ r / 64 ∧
          r / 64 < rm.rm_size + (m1.rm_size - rm.rm_size))]
        have : fillWord 0xFF = allOnes := by norm_num [fillWord]
        rw [this, allOnes_testBit (by omega : r % 64 < 64), hgap.1]
        simp
      · rw [if_neg (by omega : ¬ r < m1.rm_size * 64),
          if_neg (by omega : ¬ r < m1.rm_size * 64),
          if_neg (by omega : ¬ r < rm.rm_size * 64)]
  · rw [if_neg hgap]
    simp only [semN, bitAt, rm_size_bits, BitsPerWord]
    rcases Nat.lt_or_ge r (rm.rm_size * 64) with hA | hA
    · have hAm : r < m1.rm_size * 64 := by omega
      rw [if_pos hAm, if_pos hAm, if_pos hA]
      by_cases hc : min rm.lwm m1.lwm ≤ r / 64 ∧ r / 64 ≤ max m1.hwm rm.hwm ∧
          r / 64 < rm.rm_size
      · rw [if_pos hc, Nat.testBit_lor]
      · rw [if_neg hc]
        rcases (by omega : (r / 64 < m1.lwm ∧ r / 64 < rm.lwm) ∨
            (m1.hwm < r / 64 ∧ rm.hwm < r / 64)) with hlo | hhi
        · rw [hz1 _ (by omega) (Or.inl hlo.1), hz2 _ (by omega) (Or.inl hlo.2)]
          simp [Nat.zero_testBit]
        · rw [hz1 _ (by omega) (Or.inr hhi.1), hz2 _ (by omega) (Or.inr hhi.2)]
          simp [Nat.zero_testBit]
    · rcases Nat.lt_or_ge r (m1.rm_size * 64) with hB | hC
      · have hlt : rm.rm_size < m1.rm_size := by omega
        have hstk : rm.all_stack = false := by
          rcases Bool.eq_false_or_eq_true rm.all_stack with h | h
          · exact absurd ⟨h, hlt⟩ hgap
          · exact h
        rw [if_pos hB, if_pos hB, if_neg (by omega : ¬ r < rm.rm_size * 64)]
        rw [if_neg (by omega : ¬ (min rm.lwm m1.lwm ≤ r / 64 ∧
          r / 64 ≤ max m1.hwm rm.hwm ∧ r / 64 < rm.rm_size)), hstk]
        simp
      · rw [if_neg (by omega : ¬ r < m1.rm_size * 64),
          if_neg (by omega : ¬ r < m1.rm_size * 64),
          if_neg (by omega : ¬ r < rm.rm_size * 64)]

theorem OR_fields (m rm : RegMask) :
    (m.OR rm).offset = m.offset ∧
      (m.OR rm).all_stack = (m.all_stack || rm.all_stack) := by
  have h1 := m.grow_offset rm.rm_size
  have h2 := m.grow_all_stack rm.rm_size
  simp only [OR, set_range]
  split <;> exact ⟨h1, by rw [← h2]⟩

theorem OR_valid (m rm : RegMask) (hm : m.valid_watermarks)
    (hrm : rm.valid_watermarks) : (m.OR rm).valid_watermarks := by
  have hv1 := m.grow_valid rm.rm_size hm
  have hsz := m.grow_rm_size rm.rm_size
  simp only [OR, set_range, ite_lt_min, ite_lt_max]
  generalize m.grow rm.rm_size = m1 at *
  obtain ⟨hh1, hl1, hz1⟩ := hv1
  obtain ⟨hh2, hl2, hz2⟩ := hrm
  by_cases hgap : rm.all_stack = true ∧ rm.rm_size < m1.rm_size
  · rw [if_pos hgap]
    refine ⟨by dsimp only; omega, by dsimp only; omega, ?_⟩
    intro i hi hout
    dsimp only at hi hout ⊢
    have hilo : i < min rm.lwm m1.lwm := by omega
    rw [if_neg (by omega : ¬ (rm.rm_size ≤ i ∧
      i < rm.rm_size + (m1.rm_size - rm.rm_size)))]
    rw [if_neg (by omega : ¬ (min rm.lwm m1.lwm ≤ i ∧ i ≤ max m1.hwm rm.hwm ∧
      i < rm.rm_size))]
    exact hz1 i hi (Or.inl (by omega))
  · rw [if_neg hgap]
    refine ⟨by dsimp only; omega, by dsimp only; omega, ?_⟩
    intro i hi hout
    dsimp only at hi hout ⊢
    rcases hout with hout | hout
    · rw [if_neg (by omega : ¬ (min rm.lwm m1.lwm ≤ i ∧ i ≤ max m1.hwm rm.hwm ∧
        i < rm.rm_size))]
      exact hz1 i hi (Or.inl (by omega))
    · rw [if_neg (by omega : ¬ (min rm.lwm m1.lwm ≤ i ∧ i ≤ max m1.hwm rm.hwm ∧
        i < rm.rm_size))]
      exact hz1 i hi (Or.inr (by omega))

theorem land_zero_r (a : Nat) : a &&& 0 = 0 :=
  Nat.eq_of_testBit_eq (by simp [Nat.testBit_land, Nat.zero_testBit])

theorem zero_land_l (a : Nat) : 0 &&& a = 0 :=
  Nat.eq_of_testBit_eq (by simp [Nat.testBit_land, Nat.zero_testBit])

theorem AND_semN (m rm : RegMask) (hm : m.valid_watermarks)
    (hrm : rm.valid_watermarks) (r : Nat) :
    (m.AND rm).semN r = (m.semN r && rm.semN r) := by
  have hsem := m.grow_semN rm.rm_size r
  have hv1 := m.grow_valid rm.rm_size hm
  have hsz := m.grow_rm_size rm.rm_size
  rw [← hsem]
  simp only [AND, set_range, ite_lt_max]
  generalize m.grow rm.rm_size = m1 at *
  obtain ⟨hh1, hl1, hz1⟩ := hv1
  obtain ⟨hh2, hl2, hz2⟩ := hrm
  by_cases hgap : rm.all_stack = false ∧ rm.rm_size - 1 < m1.hwm
  · rw [if_pos hgap]
    simp only [apply_ite RegMask.words, apply_ite RegMask.rm_size,
      apply_ite RegMask.all_stack, ite_self]
    simp only [semN, bitAt, rm_size_bits, BitsPerWord]
    rcases Nat.lt_or_ge r (rm.rm_size * 64) with hA | hA
    · have hAm : r < m1.rm_size * 64 := by omega
      rw [if_pos hAm, if_pos hAm, if_pos hA]
      rw [if_neg (by omega : ¬ (rm.rm_size ≤ r / 64 ∧
        r / 64 < rm.rm_size + (m1.hwm - (rm.rm_size - 1))))]
      by_cases hc : m1.lwm ≤ r / 64 ∧ r / 64 ≤ m1.hwm ∧ r / 64 < rm.rm_size
      · rw [if_pos hc, Nat.testBit_land]
      · rw [if_neg hc]
        rw [hz1 _ (by omega) (by omega)]
        simp [Nat.zero_testBit]
    · rcases Nat.lt_or_ge r (m1.rm_size * 64) with hB | hC
      · rw [if_pos hB, if_pos hB, if_neg (by omega : ¬ r < rm.rm_size * 64),
          hgap.1]
        by_cases hf : rm.rm_size ≤ r / 64 ∧
            r / 64 < rm.rm_size + (m1.hwm - (rm.rm_size - 1))
        · rw [if_pos hf]
          simp [fillWord, Nat.zero_testBit]
        · rw [if_neg hf]
          rw [if_neg (by omega : ¬ (m1.lwm ≤ r / 64 ∧ r / 64 ≤ m1.hwm ∧
            r / 64 < rm.rm_size))]
          rw [hz1 _ (by omega) (by omega)]
          simp [Nat.zero_testBit]
      · rw [if_neg (by omega : ¬ r < m1.rm_size * 64),
          if_neg (by omega : ¬ r < m1.rm_size * 64),
          if_neg (by omega : ¬ r < rm.rm_size * 64)]
  · rw [if_neg hgap]
    simp only [apply_ite RegMask.words, apply_ite RegMask.rm_size,
      apply_ite RegMask.all_stack, ite_self]
    simp only [semN, bitAt, rm_size_bits, BitsPerWord]
    rcases Nat.lt_or_ge r (rm.rm_size * 64) with hA | hA
    · have hAm : r < m1.rm_size * 64 := by omega
      rw [if_pos hAm, if_pos hAm, if_pos hA]
      by_cases hc : m1.lwm ≤ r / 64 ∧ r / 64 ≤ m1.hwm ∧ r / 64 < rm.rm_size
      · rw [if_pos hc, Nat.testBit_land]
      · rw [if_neg hc]
        rw [hz1 _ (by omega) (by omega)]
        simp [Nat.zero_testBit]
    · rcases Nat.lt_or_ge r (m1.rm_size * 64) with hB | hC
      · have hlt : rm.rm_size < m1.rm_size := by omega
        rw [if_pos hB, if_pos hB, if_neg (by omega : ¬ r < rm.rm_size * 64)]
        rw [if_neg (by omega : ¬ (m1.lwm ≤ r / 64 ∧ r / 64 ≤ m1.hwm ∧
          r / 64 < rm.rm_size))]
        rcases Bool.eq_false_or_eq_true rm.all_stack with hstk | hstk
        · rw [hstk]
          simp
        · have hhwm : m1.hwm ≤ rm.rm_size - 1 := by
            by_contra hcon
            exact hgap ⟨hstk, by omega⟩
          rw [hz1 _ (by omega) (by omega), hstk]
          simp [Nat.zero_testBit]
      · rw [if_neg (by omega : ¬ r < m1.rm_size * 64),
          if_neg (by omega : ¬ r < m1.rm_size * 64),
          if_neg (by omega : ¬ r < rm.rm_size * 64)]

theorem AND_fields (m rm : RegMask) :
    (m.AND rm).offset = m.offset ∧
      (m.AND rm).all_stack = (m.all_stack && rm.all_stack) := by
  have h1 := m.grow_offset rm.rm_size
  have h2 := m.grow_all_stack rm.rm_size
  simp only [AND, set_range]
  generalize m.grow rm.rm_size = m1 at *
  simp only [apply_ite RegMask.offset, apply_ite RegMask.all_stack, ite_self]
  exact ⟨h1, by rw [h2]⟩

theorem AND_valid (m rm : RegMask) (hm : m.valid_watermarks)
    (hrm : rm.valid_watermarks) : (m.AND rm).valid_watermarks := by
  have hv1 := m.grow_valid rm.rm_size hm
  have hsz := m.grow_rm_size rm.rm_size
  simp only [AND, set_range, ite_lt_max]
  generalize m.grow rm.rm_size = m1 at *
  obtain ⟨hh1, hl1, hz1⟩ := hv1
  obtain ⟨hh2, hl2, hz2⟩ := hrm
  by_cases hgap : rm.all_stack = false ∧ rm.rm_size - 1 < m1.hwm
  · rw [if_pos hgap]
    dsimp only
    by_cases hc5 : rm.hwm < rm.rm_size - 1 ∧
        ¬(rm.all_stack = true ∧ rm.rm_size - 1 < rm.rm_size - 1)
    · rw [if_pos hc5]
      refine ⟨by dsimp only; omega, by dsimp only; omega, ?_⟩
      intro i hi hout
      dsimp only at hi hout ⊢
      by_cases hf : rm.rm_size ≤ i ∧ i < rm.rm_size + (m1.hwm - (rm.rm_size - 1))
      · rw [if_pos hf]; rfl
      · rw [if_neg hf]
        by_cases hc : m1.lwm ≤ i ∧ i ≤ m1.hwm ∧ i < rm.rm_size
        · rw [if_pos hc, hz2 i (by omega) (by omega), land_zero_r]
        · rw [if_neg hc]
          exact hz1 i hi (by omega)
    · rw [if_neg hc5]
      refine ⟨by dsimp only; omega, by dsimp only; omega, ?_⟩
      intro i hi hout
      dsimp only at hi hout ⊢
      by_cases hf : rm.rm_size ≤ i ∧ i < rm.rm_size + (m1.hwm - (rm.rm_size - 1))
      · rw [if_pos hf]; rfl
      · rw [if_neg hf]
        by_cases hc : m1.lwm ≤ i ∧ i ≤ m1.hwm ∧ i < rm.rm_size
        · rw [if_pos hc, hz2 i (by omega) (by omega), land_zero_r]
        · rw [if_neg hc]
          exact hz1 i hi (by omega)
  · rw [if_neg hgap]
    dsimp only
    have hside : rm.all_stack = true ∨ m1.hwm ≤ rm.rm_size - 1 := by
      rcases Bool.eq_false_or_eq_true rm.all_stack with hstk | hstk
      · left; exact hstk
      · right
        by_contra hcon
        exact hgap ⟨hstk, by omega⟩
    by_cases hc5 : rm.hwm < m1.hwm ∧
        ¬(rm.all_stack = true ∧ rm.rm_size - 1 < m1.hwm)
    · rw [if_pos hc5]
      refine ⟨by dsimp only; omega, by dsimp only; omega, ?_⟩
      intro i hi hout
      dsimp only at hi hout ⊢
      by_cases hc : m1.lwm ≤ i ∧ i ≤ m1.hwm ∧ i < rm.rm_size
      · rw [if_pos hc, hz2 i (by omega) (by omega), land_zero_r]
      · rw [if_neg hc]
        apply hz1 i hi
        rcases hout with hout | hout
        · omega
        · rcases hside with hstk | hhwm
          · have hnot : ¬ rm.rm_size - 1 < m1.hwm := fun hcon => hc5.2 ⟨hstk, hcon⟩
            omega
          · omega
    · rw [if_neg hc5]
      refine ⟨by dsimp only; omega, by dsimp only; omega, ?_⟩
      intro i hi hout
      dsimp only at hi hout ⊢
      by_cases hc : m1.lwm ≤ i ∧ i ≤ m1.hwm ∧ i < rm.rm_size
      · rw [if_pos hc, hz2 i (by omega) (by omega), land_zero_r]
      · rw [if_neg hc]
        exact hz1 i hi (by omega)

theorem SUBTRACT_semN (m rm : RegMask) (hm : m.valid_watermarks)
    (hrm : rm.valid_watermarks) (r : Nat) :
    (m.SUBTRACT rm).semN r = (m.semN r && !(rm.semN r)) := by
  have hsem := m.grow_semN rm.rm_size r
  have hv1 := m.grow_valid rm.rm_size hm
  have hsz := m.grow_rm_size rm.rm_size
  rw [← hsem]
  simp only [SUBTRACT, set_range, ite_lt_min, ite_lt_max]
  generalize m.grow rm.rm_size = m1 at *
  obtain ⟨hh1, hl1, hz1⟩ := hv1
  obtain ⟨hh2, hl2, hz2⟩ := hrm
  by_cases hgap : rm.all_stack = true ∧ rm.rm_size - 1 < m1.hwm
  · rw [if_pos hgap]
    simp only [semN, bitAt, rm_size_bits, BitsPerWord]
    rcases Nat.lt_or_ge r (rm.rm_size * 64) with hA | hA
    · have hAm : r < m1.rm_size * 64 := by omega
      rw [if_pos hAm, if_pos hAm, if_pos hA]
      rw [if_neg (by omega : ¬ (rm.rm_size ≤ r / 64 ∧
        r / 64 < rm.rm_size + (m1.hwm - (rm.rm_size - 1))))]
      by_cases hc : max m1.lwm rm.lwm ≤ r / 64 ∧ r / 64 ≤ min rm.hwm m1.hwm
      · rw [if_pos hc, Nat.testBit_ldiff]
      · rw [if_neg hc]
        rcases (by omega : (r / 64 < m1.lwm ∨ m1.hwm < r / 64) ∨
            (r / 64 < rm.lwm ∨ rm.hwm < r / 64)) with h1 | h2
        · rw [hz1 _ (by omega) h1]
          simp [Nat.zero_testBit]
        · rw [hz2 _ (by omega) h2]
          simp [Nat.zero_testBit]
    · rcases Nat.lt_or_ge r (m1.rm_size * 64) with hB | hC
      · rw [if_pos hB, if_pos hB, if_neg (by omega : ¬ r < rm.rm_size * 64),
          hgap.1]
        by_cases hf : rm.rm_size ≤ r / 64 ∧
            r / 64 < rm.rm_size + (m1.hwm - (rm.rm_size - 1))
        · rw [if_pos hf]
          simp [fillWord, Nat.zero_testBit]
        · rw [if_neg hf]
          rw [if_neg (by omega : ¬ (max m1.lwm rm.lwm ≤ r / 64 ∧
            r / 64 ≤ min rm.hwm m1.hwm))]
          rw [hz1 _ (by omega) (by omega)]
          simp [Nat.zero_testBit]
      · rw [if_neg (by omega : ¬ r < m1.rm_size * 64),
          if_neg (by omega : ¬ r < m1.rm_size * 64),
          if_neg (by omega : ¬ r < rm.rm_size * 64)]
  · rw [if_neg hgap]
    simp only [semN, bitAt, rm_size_bits, BitsPerWord]
    rcases Nat.lt_or_ge r (rm.rm_size * 64) with hA | hA
    · have hAm : r < m1.rm_size * 64 := by omega
      rw [if_pos hAm, if_pos hAm, if_pos hA]
      by_cases hc : max m1.lwm rm.lwm ≤ r / 64 ∧ r / 64 ≤ min rm.hwm m1.hwm
      · rw [if_pos hc, Nat.testBit_ldiff]
      · rw [if_neg hc]
        rcases (by omega : (r / 64 < m1.lwm ∨ m1.hwm < r / 64) ∨
            (r / 64 < rm.lwm ∨ rm.hwm < r / 64)) with h1 | h2
        · rw [hz1 _ (by omega) h1]
          simp [Nat.zero_testBit]
        · rw [hz2 _ (by omega) h2]
          simp [Nat.zero_testBit]
    · rcases Nat.lt_or_ge r (m1.rm_size * 64) with hB | hC
      · have hlt : rm.rm_size < m1.rm_size := by omega
        rw [if_pos hB, if_pos hB, if_neg (by omega : ¬ r < rm.rm_size * 64)]
        rw [if_neg (by omega : ¬ (max m1.lwm rm.lwm ≤ r / 64 ∧
          r / 64 ≤ min rm.hwm m1.hwm))]
        rcases Bool.eq_false_or_eq_true rm.all_stack with hstk | hstk
        · have hhwm : m1.hwm ≤ rm.rm_size - 1 := by
            by_contra hcon
            exact hgap ⟨hstk, by omega⟩
          rw [hz1 _ (by omega) (by omega), hstk]
          simp [Nat.zero_testBit]
        · rw [hstk]
          simp
      · rw [if_neg (by omega : ¬ r < m1.rm_size * 64),
          if_neg (by omega : ¬ r < m1.rm_size * 64),
          if_neg (by omega : ¬ r < rm.rm_size * 64)]

theorem SUBTRACT_fields (m rm : RegMask) :
    (m.SUBTRACT rm).offset = m.offset ∧
      (m.SUBTRACT rm).all_stack = (m.all_stack && !rm.all_stack) := by
  have h1 := m.grow_offset rm.rm_size
  have h2 := m.grow_all_stack rm.rm_size
  simp only [SUBTRACT, set_range]
  generalize m.grow rm.rm_size = m1 at *
  simp only [apply_ite RegMask.offset, apply_ite RegMask.all_stack, ite_self]
  exact ⟨h1, by rw [h2]⟩

theorem SUBTRACT_valid (m rm : RegMask) (hm : m.valid_watermarks)
    (hrm : rm.valid_watermarks) : (m.SUBTRACT rm).valid_watermarks := by
  have hv1 := m.grow_valid rm.rm_size hm
  have hsz := m.grow_rm_size rm.rm_size
  simp only [SUBTRACT, set_range, ite_lt_min, ite_lt_max]
  generalize m.grow rm.rm_size = m1 at *
  obtain ⟨hh1, hl1, hz1⟩ := hv1
  obtain ⟨hh2, hl2, hz2⟩ := hrm
  by_cases hgap : rm.all_stack = true ∧ rm.rm_size - 1 < m1.hwm
  · rw [if_pos hgap]
    refine ⟨by dsimp only; omega, by dsimp only; omega, ?_⟩
    intro i hi hout
    dsimp only at hi hout ⊢
    by_cases hf : rm.rm_size ≤ i ∧ i < rm.rm_size + (m1.hwm - (rm.rm_size - 1))
    · rw [if_pos hf]; rfl
    · rw [if_neg hf]
      rw [if_neg (by omega : ¬ (max m1.lwm rm.lwm ≤ i ∧ i ≤ min rm.hwm m1.hwm))]
      exact hz1 i hi (by omega)
  · rw [if_neg hgap]
    refine ⟨by dsimp only; omega, by dsimp only; omega, ?_⟩
    intro i hi hout
    dsimp only at hi hout ⊢
    rw [if_neg (by omega : ¬ (max m1.lwm rm.lwm ≤ i ∧ i ≤ min rm.hwm m1.hwm))]
    exact hz1 i hi (by omega)

theorem SUBTRACT_inner_valid (m rm : RegMask) (hm : m.valid_watermarks) :
    (m.SUBTRACT_inner rm).valid_watermarks := by
  obtain ⟨hh, hl, hz⟩ := hm
  simp only [SUBTRACT_inner]
  refine ⟨hh, hl, ?_⟩
  intro i hi hout
  dsimp only at hi hout ⊢
  have hcond : ¬ (max (m.lwm : Int) ((rm.lwm : Int) - ((m.offset : Int) - (rm.offset : Int))) ≤ (i : Int) ∧
      (i : Int) ≤ min (m.hwm : Int) ((rm.hwm : Int) - ((m.offset : Int) - (rm.offset : Int)))) := by
    omega
  rw [if_neg hcond]
  exact hz i hi hout

theorem Set_All_From_valid (m : RegMask) (reg : Int) (hm : m.valid_watermarks) :
    (m.Set_All_From reg).valid_watermarks := by
  have hv1 := m.grow_valid ((reg - (m.offset_bits : Int)).toNat / BitsPerWord + 1) hm
  have hsz := (m.grow_rm_size ((reg - (m.offset_bits : Int)).toNat / BitsPerWord + 1)).2
  simp only [Set_All_From, set_range, ite_lt_min]
  generalize m.grow ((reg - (m.offset_bits : Int)).toNat / BitsPerWord + 1) = m1 at hv1 hsz
  generalize hrr : (reg - (m.offset_bits : Int)).toNat = rr at *
  obtain ⟨hh1, hl1, hz1⟩ := hv1
  by_cases hx : rr / BitsPerWord < m1.rm_size - 1
  · rw [if_pos hx]
    refine ⟨by dsimp only; omega, by dsimp only [BitsPerWord] at *; omega, ?_⟩
    intro i hi hout
    dsimp only [BitsPerWord] at hi hout hsz hx ⊢
    rw [if_neg (by omega : ¬ (rr / 64 + 1 ≤ i ∧ i < rr / 64 + 1 + (m1.rm_size - 1 - (rr / 64))))]
    rw [if_neg (by omega : ¬ i = rr / 64)]
    exact hz1 i hi (by omega)
  · rw [if_neg hx]
    refine ⟨by dsimp only; omega, by dsimp only [BitsPerWord] at *; omega, ?_⟩
    intro i hi hout
    dsimp only [BitsPerWord] at hi hout hsz hx ⊢
    rw [if_neg (by omega : ¬ i = rr / 64)]
    exact hz1 i hi (by omega)

theorem Set_All_fields (m : RegMask) :
    (m.Set_All).rm_size = m.rm_size ∧ (m.Set_All).offset = m.offset ∧
      (m.Set_All).all_stack = true := ⟨rfl, rfl, rfl⟩

theorem Set_All_valid (m : RegMask) (h : 0 < m.rm_size) :
    m.Set_All.valid_watermarks := Set_All_From_Offset_valid m h

theorem memberI_emptyAt (off : Nat) (id : Int) :
    (emptyAt off).Member_including_AllStack id = false := by
  rw [Member_including_AllStack, member_true_eq_semN]
  split
  · rfl
  · exact emptyAt_semN off _

theorem memberI_OR (m rm : RegMask) (hm : m.valid_watermarks)
    (hrm : rm.valid_watermarks) (hof : m.offset = rm.offset) (id : Int) :
    (m.OR rm).Member_including_AllStack id
      = (m.Member_including_AllStack id || rm.Member_including_AllStack id) := by
  have ho1 : (m.OR rm).offset_bits = m.offset_bits := by
    unfold offset_bits; rw [(OR_fields m rm).1]
  have ho2 : rm.offset_bits = m.offset_bits := by
    unfold offset_bits; rw [hof]
  simp only [Member_including_AllStack, member_true_eq_semN, ho1, ho2]
  split
  · rfl
  · exact OR_semN m rm hm hrm _

theorem memberI_AND (m rm : RegMask) (hm : m.valid_watermarks)
    (hrm : rm.valid_watermarks) (hof : m.offset = rm.offset) (id : Int) :
    (m.AND rm).Member_including_AllStack id
      = (m.Member_including_AllStack id && rm.Member_including_AllStack id) := by
  have ho1 : (m.AND rm).offset_bits = m.offset_bits := by
    unfold offset_bits; rw [(AND_fields m rm).1]
  have ho2 : rm.offset_bits = m.offset_bits := by
    unfold offset_bits; rw [hof]
  simp only [Member_including_AllStack, member_true_eq_semN, ho1, ho2]
  split
  · rfl
  · exact AND_semN m rm hm hrm _

theorem memberI_SUBTRACT (m rm : RegMask) (hm : m.valid_watermarks)
    (hrm : rm.valid_watermarks) (hof : m.offset = rm.offset) (id : Int) :
    (m.SUBTRACT rm).Member_including_AllStack id
      = (m.Member_including_AllStack id && !(rm.Member_including_AllStack id)) := by
  have ho1 : (m.SUBTRACT rm).offset_bits = m.offset_bits := by
    unfold offset_bits; rw [(SUBTRACT_fields m rm).1]
  have ho2 : rm.offset_bits = m.offset_bits := by
    unfold offset_bits; rw [hof]
  simp only [Member_including_AllStack, member_true_eq_semN, ho1, ho2]
  split
  · rfl
  · exact SUBTRACT_semN m rm hm hrm _

theorem memberI_Remove (m : RegMask) (reg : Int) (hpre : m.remove_asserts_ok reg)
    (id : Int) :
    (m.Remove reg).Member_including_AllStack id
      = (m.Member_including_AllStack id && !decide (id = reg)) := by
  have ho : (m.Remove reg).offset_bits = m.offset_bits := rfl
  simp only [Member_including_AllStack, member_true_eq_semN, ho]
  split
  · case _ h => rfl
  · case _ h =>
    rw [Remove_semN m reg hpre]
    have he : ((id - (m.offset_bits : Int)).toNat
        = (reg - (m.offset_bits : Int)).toNat) ↔ (id = reg) := by
      obtain ⟨hp1, _⟩ := hpre
      omega
    rw [decide_eq_decide.mpr he]

/-- Claim C3: membership after offset adjustment — `Member` (in its
all-stack-including form `Member_including_AllStack`) returns `false` for
every id that falls below zero after subtracting the set's offset, and
returns the all-stack flag for every id at or beyond the current
capacity. -/
theorem C3_member_offset_and_capacity (m : RegMask) (id : Int) :
    (id - (m.offset_bits : Int) < 0 → m.Member_including_AllStack id = false) ∧
    ((m.rm_size_bits : Int) ≤ id - (m.offset_bits : Int) →
      m.Member_including_AllStack id = m.all_stack) := by
  constructor
  · intro h
    rw [Member_including_AllStack, member_true_eq_semN,
      if_pos (by omega : id < (m.offset_bits : Int))]
  · intro h
    rw [Member_including_AllStack, member_true_eq_semN,
      if_neg (by omega : ¬ id < (m.offset_bits : Int))]
    unfold semN
    rw [if_neg (by omega : ¬ (id - (m.offset_bits : Int)).toNat < m.rm_size_bits)]

/-- Witness for C3 at concrete inputs: an id below the offset window is
not a member, and an id beyond the capacity of an all-stack mask reads the
all-stack flag. -/
theorem C3_witness :
    emptyMask.Member_including_AllStack (-5) = false ∧
      emptyMask.Set_All.Member_including_AllStack 256
        = emptyMask.Set_All.all_stack :=
  ⟨(C3_member_offset_and_capacity emptyMask (-5)).1 (by decide),
   (C3_member_offset_and_capacity emptyMask.Set_All 256).2 (by decide)⟩

/-- Claim C4: rollover isolation.  For a set in the all-stack-only state,
`rollover` advances the offset by the current capacity (in words) and
reinitializes to all-beyond-from-offset; consequently a pre-rollover
member id `k` is, after `rollover`, `Clear` and
`Insert (old-capacity + k)`, no longer a member while `old-capacity + k`
is one. -/
theorem C4_rollover_isolation (m : RegMask) (k : Int)
    (hv : m.valid_watermarks) (hao : m.is_AllStack_only)
    (hk : m.Member_including_AllStack k = true) :
    m.rollover.offset = m.offset + m.rm_size ∧
    (∀ id : Int, m.rollover.Member_including_AllStack id
        = decide ((m.rollover.offset_bits : Int) ≤ id)) ∧
    ((m.rollover.Clear.Insert
        (k + (m.rm_size_bits : Int))).Member_including_AllStack k = false) ∧
    ((m.rollover.Clear.Insert
        (k + (m.rm_size_bits : Int))).Member_including_AllStack
          (k + (m.rm_size_bits : Int)) = true) := by
  obtain ⟨hh, hl, hz⟩ := hv
  have hzero : ∀ i, i < m.rm_size → m.words i = 0 := by
    intro i hi
    rcases le_or_lt m.lwm i with h1 | h1
    · rcases le_or_lt i m.hwm with h2 | h2
      · exact hao.1 i h1 h2
      · exact hz i hi (Or.inr h2)
    · exact hz i hi (Or.inl h1)
  have hbeyond : (m.offset_bits : Int) + (m.rm_size_bits : Int) ≤ k := by
    by_contra hcon
    push_neg at hcon
    rw [Member_including_AllStack, member_true_eq_semN] at hk
    by_cases h1 : k < (m.offset_bits : Int)
    · rw [if_pos h1] at hk
      exact Bool.false_ne_true hk
    · rw [if_neg h1] at hk
      unfold semN bitAt at hk
      have hlt : (k - (m.offset_bits : Int)).toNat < m.rm_size_bits := by omega
      rw [if_pos hlt] at hk
      have hjlt : (k - (m.offset_bits : Int)).toNat / BitsPerWord < m.rm_size := by
        simp only [rm_size_bits, BitsPerWord] at hlt ⊢
        omega
      rw [hzero _ hjlt] at hk
      rw [Nat.zero_testBit] at hk
      exact Bool.false_ne_true hk
  have hpos : 0 < m.rm_size_bits := by
    simp only [rm_size_bits, BitsPerWord]
    omega
  have hCoff : ((m.rollover.Clear.offset_bits : Nat) : Int)
      = (m.offset_bits : Int) + (m.rm_size_bits : Int) := by
    show (((m.offset + m.rm_size) * BitsPerWord : Nat) : Int) = _
    simp only [offset_bits, rm_size_bits]
    push_cast
    ring
  have hIoff : (m.rollover.Clear.Insert
      (k + (m.rm_size_bits : Int))).offset_bits = m.rollover.Clear.offset_bits := by
    unfold offset_bits
    rw [(Insert_fields _ _).1]
  refine ⟨rfl, ?_, ?_, ?_⟩
  · intro id
    rw [Member_including_AllStack, member_true_eq_semN]
    split
    · case _ h => exact (decide_eq_false (by omega)).symm
    · case _ h =>
      rw [rollover_semN]
      exact (decide_eq_true (by omega)).symm
  · rw [Member_including_AllStack, member_true_eq_semN, hIoff]
    rw [if_neg (by omega : ¬ k < (m.rollover.Clear.offset_bits : Int))]
    rw [Insert_semN, Clear_semN, Bool.false_or]
    apply decide_eq_false
    intro hcon
    have := hCoff
    omega
  · rw [Member_including_AllStack, member_true_eq_semN, hIoff]
    rw [if_neg (by omega :
      ¬ k + (m.rm_size_bits : Int) < (m.rollover.Clear.offset_bits : Int))]
    rw [Insert_semN, Clear_semN, Bool.false_or]
    exact decide_eq_true rfl

/-- Witness for C4 at a concrete input: a default mask with the all-stack
flag raised, and pre-rollover member id 300. -/
theorem C4_witness :
    ({ emptyMask with all_stack := true } : RegMask).rollover.offset
        = ({ emptyMask with all_stack := true } : RegMask).offset
          + ({ emptyMask with all_stack := true } : RegMask).rm_size ∧
    (∀ id : Int,
      ({ emptyMask with all_stack := true } : RegMask).rollover.Member_including_AllStack id
        = decide ((({ emptyMask with all_stack := true } : RegMask).rollover.offset_bits : Int) ≤ id)) ∧
    (({ emptyMask with all_stack := true } : RegMask).rollover.Clear.Insert
        (300 + (({ emptyMask with all_stack := true } : RegMask).rm_size_bits : Int))).Member_including_AllStack 300 = false ∧
    (({ emptyMask with all_stack := true } : RegMask).rollover.Clear.Insert
        (300 + (({ emptyMask with all_stack := true } : RegMask).rm_size_bits : Int))).Member_including_AllStack
          (300 + (({ emptyMask with all_stack := true } : RegMask).rm_size_bits : Int)) = true :=
  C4_rollover_isolation { emptyMask with all_stack := true } 300
    (by decide) (by decide) (by decide)

/-- Claim C5: register-set algebra.  For all sets `A`, `B` with equal
offsets (with `∅` the empty mask positioned at that offset):
`A ∪ ∅ = A`, `A ∩ ∅ = ∅`, `(A ∪ B) ∩ B = B` and `A − A = ∅`, where
equality is agreement of membership on every id together with the
all-stack flag. -/
theorem C5_regmask_algebra (A B : RegMask) (hA : A.valid_watermarks)
    (hB : B.valid_watermarks) (hof : A.offset = B.offset) :
    maskEq (A.OR (emptyAt A.offset)) A ∧
    maskEq (A.AND (emptyAt A.offset)) (emptyAt A.offset) ∧
    maskEq ((A.OR B).AND B) B ∧
    maskEq (A.SUBTRACT A) (emptyAt A.offset) := by
  have hE : (emptyAt A.offset).valid_watermarks := emptyAt_valid _
  have hEof : A.offset = (emptyAt A.offset).offset := rfl
  refine ⟨⟨?_, ?_⟩, ⟨?_, ?_⟩, ⟨?_, ?_⟩, ⟨?_, ?_⟩⟩
  · intro id
    rw [memberI_OR A _ hA hE hEof, memberI_emptyAt, Bool.or_false]
  · rw [(OR_fields A _).2]
    show (A.all_stack || false) = A.all_stack
    rw [Bool.or_false]
  · intro id
    rw [memberI_AND A _ hA hE hEof, memberI_emptyAt, Bool.and_false]
  · rw [(AND_fields A _).2]
    show (A.all_stack && false) = false
    rw [Bool.and_false]
  · intro id
    rw [memberI_AND (A.OR B) B (OR_valid A B hA hB) hB
        (by rw [(OR_fields A B).1, hof]),
      memberI_OR A B hA hB hof]
    cases hb : B.Member_including_AllStack id <;> simp [hb]
  · rw [(AND_fields _ B).2, (OR_fields A B).2]
    cases B.all_stack <;> simp
  · intro id
    rw [memberI_SUBTRACT A A hA hA rfl, memberI_emptyAt]
    cases A.Member_including_AllStack id <;> simp
  · rw [(SUBTRACT_fields A A).2]
    show (A.all_stack && !A.all_stack) = (emptyAt A.offset).all_stack
    cases A.all_stack <;> rfl

/-- Witness for C5 at concrete inputs. -/
theorem C5_witness :
    maskEq ((emptyMask.Insert 3).OR (emptyAt (emptyMask.Insert 3).offset))
      (emptyMask.Insert 3) ∧
    maskEq ((emptyMask.Insert 3).AND (emptyAt (emptyMask.Insert 3).offset))
      (emptyAt (emptyMask.Insert 3).offset) ∧
    maskEq (((emptyMask.Insert 3).OR (emptyMask.Insert 7)).AND
      (emptyMask.Insert 7)) (emptyMask.Insert 7) ∧
    maskEq ((emptyMask.Insert 3).SUBTRACT (emptyMask.Insert 3))
      (emptyAt (emptyMask.Insert 3).offset) :=
  C5_regmask_algebra (emptyMask.Insert 3) (emptyMask.Insert 7)
    (by decide) (by decide) rfl

/-- Claim C6: every register-set operation — construction, `Insert`,
`Remove`, `OR`, `AND`, `SUBTRACT`, `SUBTRACT_inner`, `Clear`, `Set_All`,
`Set_All_From` and `rollover` — preserves the watermark invariant
(`valid_watermarks`): both watermarks strictly below the current word
count, and every word strictly below the low or strictly above the high
watermark zero. -/
theorem C6_operations_preserve_watermarks :
    emptyMask.valid_watermarks ∧
    (∀ (m : RegMask) (reg : Int), m.valid_watermarks →
      (m.Insert reg).valid_watermarks) ∧
    (∀ (m : RegMask) (reg : Int), m.valid_watermarks →
      (m.Remove reg).valid_watermarks) ∧
    (∀ m rm : RegMask, m.valid_watermarks → rm.valid_watermarks →
      m.offset = rm.offset → (m.OR rm).valid_watermarks) ∧
    (∀ m rm : RegMask, m.valid_watermarks → rm.valid_watermarks →
      m.offset = rm.offset → (m.AND rm).valid_watermarks) ∧
    (∀ m rm : RegMask, m.valid_watermarks → rm.valid_watermarks →
      m.offset = rm.offset → (m.SUBTRACT rm).valid_watermarks) ∧
    (∀ m rm : RegMask, m.valid_watermarks →
      (m.SUBTRACT_inner rm).valid_watermarks) ∧
    (∀ m : RegMask, m.valid_watermarks → m.Clear.valid_watermarks) ∧
    (∀ m : RegMask, m.valid_watermarks → m.offset = 0 →
      m.Set_All.valid_watermarks) ∧
    (∀ (m : RegMask) (reg : Int), m.valid_watermarks →
      (m.Set_All_From reg).valid_watermarks) ∧
    (∀ m : RegMask, m.valid_watermarks → m.is_AllStack_only →
      m.rollover.valid_watermarks) := by
  refine ⟨emptyMask_valid,
    fun m reg h => Insert_valid m reg h,
    fun m reg h => Remove_valid m reg h,
    fun m rm h hr _ => OR_valid m rm h hr,
    fun m rm h hr _ => AND_valid m rm h hr,
    fun m rm h hr _ => SUBTRACT_valid m rm h hr,
    fun m rm h => SUBTRACT_inner_valid m rm h,
    fun m h => Clear_valid m (by obtain ⟨hh, _, _⟩ := h; omega),
    fun m h _ => Set_All_valid m (by obtain ⟨hh, _, _⟩ := h; omega),
    fun m reg h => Set_All_From_valid m reg h,
    fun m h _ => rollover_valid m (by obtain ⟨hh, _, _⟩ := h; omega)⟩

/-- Witness for C6: each operation applied at a concrete input keeps the
watermark invariant. -/
theorem C6_witness :
    (emptyMask.Insert 70).valid_watermarks ∧
    (emptyMask.Remove 3).valid_watermarks ∧
    (emptyMask.OR emptyMask).valid_watermarks ∧
    (emptyMask.AND emptyMask).valid_watermarks ∧
    (emptyMask.SUBTRACT emptyMask).valid_watermarks ∧
    (emptyMask.SUBTRACT_inner emptyMask).valid_watermarks ∧
    emptyMask.Clear.valid_watermarks ∧
    emptyMask.Set_All.valid_watermarks ∧
    (emptyMask.Set_All_From 5).valid_watermarks ∧
    ({ emptyMask with all_stack := true } : RegMask).rollover.valid_watermarks :=
  ⟨C6_operations_preserve_watermarks.2.1 emptyMask 70 (by decide),
   C6_operations_preserve_watermarks.2.2.1 emptyMask 3 (by decide),
   C6_operations_preserve_watermarks.2.2.2.1 emptyMask emptyMask
     (by decide) (by decide) rfl,
   C6_operations_preserve_watermarks.2.2.2.2.1 emptyMask emptyMask
     (by decide) (by decide) rfl,
   C6_operations_preserve_watermarks.2.2.2.2.2.1 emptyMask emptyMask
     (by decide) (by decide) rfl,
   C6_operations_preserve_watermarks.2.2.2.2.2.2.1 emptyMask emptyMask
     (by decide),
   C6_operations_preserve_watermarks.2.2.2.2.2.2.2.1 emptyMask (by decide),
   C6_operations_preserve_watermarks.2.2.2.2.2.2.2.2.1 emptyMask
     (by decide) rfl,
   C6_operations_preserve_watermarks.2.2.2.2.2.2.2.2.2.1 emptyMask 5
     (by decide),
   C6_operations_preserve_watermarks.2.2.2.2.2.2.2.2.2.2
     { emptyMask with all_stack := true } (by decide) (by decide)⟩

/-- Claim C10: `Remove` contract.  `Remove` never grows the mask and never
changes capacity, offset or the all-stack flag; under the asserted
precondition (offset-adjusted id nonnegative and strictly inside the
capacity) it clears exactly that one bit; and any id at or beyond the
current capacity violates the assertion guard (the word access would be
out of bounds). -/
theorem C10_remove_contract (m : RegMask) (reg : Int)
    (hpre : m.remove_asserts_ok reg) :
    (m.Remove reg).rm_size = m.rm_size ∧
    (m.Remove reg).offset = m.offset ∧
    (m.Remove reg).all_stack = m.all_stack ∧
    (∀ id : Int, (m.Remove reg).Member_including_AllStack id
        = (m.Member_including_AllStack id && !decide (id = reg))) ∧
    (∀ id : Int, (m.rm_size_bits : Int) ≤ id - (m.offset_bits : Int) →
      ¬ m.remove_asserts_ok id) := by
  refine ⟨rfl, rfl, rfl, fun id => memberI_Remove m reg hpre id, ?_⟩
  intro id h hcon
  obtain ⟨h1, h2⟩ := hcon
  omega

/-- Witness for C10 at a concrete input: removing id 5 from the mask that
contains exactly id 5. -/
theorem C10_witness :
    ((emptyMask.Insert 5).Remove 5).rm_size = (emptyMask.Insert 5).rm_size ∧
    ((emptyMask.Insert 5).Remove 5).offset = (emptyMask.Insert 5).offset ∧
    ((emptyMask.Insert 5).Remove 5).all_stack = (emptyMask.Insert 5).all_stack ∧
    (∀ id : Int, ((emptyMask.Insert 5).Remove 5).Member_including_AllStack id
        = ((emptyMask.Insert 5).Member_including_AllStack id
            && !decide (id = 5))) ∧
    (∀ id : Int, ((emptyMask.Insert 5).rm_size_bits : Int)
          ≤ id - ((emptyMask.Insert 5).offset_bits : Int) →
      ¬ (emptyMask.Insert 5).remove_asserts_ok id) :=
  C10_remove_contract (emptyMask.Insert 5) 5 (by decide)

end RegMask

end RegMaskModel

namespace LivenessModel

theorem scan_acc_mono (l : List Instr) (s : Finset Nat) (a : Nat → Finset Nat)
    (id : Nat) : a id ⊆ (scan l s a).2 id := by
  induction l generalizing s a with
  | nil => exact subset_rfl
  | cons i rest ih =>
      simp only [scan]
      refine subset_trans ?_ (ih _ _)
      split
      · by_cases hid : id = i.id
        · subst hid
          rw [Function.update_same]
          exact Finset.subset_union_left
        · rw [Function.update_noteq hid]
      · exact subset_rfl

theorem scan_live_subset (U : Finset Nat) :
    ∀ (l : List Instr) (s : Finset Nat) (a : Nat → Finset Nat),
      s ⊆ U → (∀ i ∈ l, i.uses.toFinset ⊆ U) → (scan l s a).1 ⊆ U := by
  intro l
  induction l with
  | nil =>
      intro s a hs _
      exact hs
  | cons i rest ih =>
      intro s a hs hu
      simp only [scan]
      apply ih
      · exact Finset.union_subset (subset_trans Finset.sdiff_subset hs)
          (hu i (by simp))
      · intro j hj
        exact hu j (by simp [hj])

theorem foldl_union_subset (U : Finset Nat) (live : Nat → Finset Nat)
    (hl : ∀ b, live b ⊆ U) :
    ∀ (l : List Nat) (s : Finset Nat), s ⊆ U →
      (l.foldl (fun s sb => s ∪ live sb) s) ⊆ U := by
  intro l
  induction l with
  | nil =>
      intro s hs
      exact hs
  | cons x rest ih =>
      intro s hs
      simp only [List.foldl]
      exact ih _ (Finset.union_subset hs (hl x))

theorem lstep_inv (g : LCFG) (R : Nat) (hwf : wfCFG g R) (st : LState)
    (h : inv g R st) : inv g R (lstep g st) := by
  obtain ⟨hw, hl⟩ := h
  rcases hwl : st.worklist with _ | ⟨b, ws⟩
  · simp only [lstep, hwl]
    exact ⟨hw, hl⟩
  · have hb : b < g.nblocks := hw b (by rw [hwl]; exact List.mem_cons_self b ws)
    have hws : ∀ x ∈ ws, x < g.nblocks := by
      intro x hx
      exact hw x (by rw [hwl]; exact List.mem_cons_of_mem b hx)
    have hdiff : ((scan (g.instrs b).reverse
        ((g.succs b).foldl (fun s sb => s ∪ st.live sb) ∅) st.acc).1 \ st.live b)
          ⊆ Finset.range R := by
      refine subset_trans Finset.sdiff_subset ?_
      apply scan_live_subset
      · exact foldl_union_subset _ _ hl _ _ (Finset.empty_subset _)
      · intro i hi u hu
        rw [List.mem_toFinset] at hu
        rw [Finset.mem_range]
        exact (hwf b hb).1 i (by simpa using hi) u hu
    simp only [lstep, hwl]
    split
    · refine ⟨?_, ?_⟩
      · intro x hx
        rcases List.mem_append.mp hx with hx | hx
        · exact (hwf b hb).2.1 x hx
        · exact hws x hx
      · intro b'
        by_cases hb' : b' = b
        · subst hb'
          dsimp only
          rw [Function.update_same]
          exact Finset.union_subset (hl b') hdiff
        · dsimp only
          rw [Function.update_noteq hb']
          exact hl b'
    · exact ⟨hws, hl⟩

theorem lstep_cases (g : LCFG) (st : LState) (b : Nat) (ws : List Nat)
    (hwl : st.worklist = b :: ws) :
    ((lstep g st).worklist = ws ∧ (lstep g st).live = st.live) ∨
    ((lstep g st).worklist = g.preds b ++ ws ∧
      st.live b ⊂ (lstep g st).live b ∧
      ∀ b', b' ≠ b → (lstep g st).live b' = st.live b') := by
  simp only [lstep, hwl]
  split
  · case _ hne =>
    right
    refine ⟨rfl, ?_, ?_⟩
    · dsimp only
      rw [Function.update_same]
      rw [Finset.ssubset_iff_of_subset Finset.subset_union_left]
      obtain ⟨x, hx⟩ := hne
      have hx' := Finset.mem_sdiff.mp hx
      exact ⟨x, Finset.mem_union_right _ hx, hx'.2⟩
    · intro b' hb'
      dsimp only
      rw [Function.update_noteq hb']
  · left
    exact ⟨rfl, rfl⟩

theorem lstep_acc_mono (g : LCFG) (st : LState) (id : Nat) :
    st.acc id ⊆ (lstep g st).acc id := by
  rcases hwl : st.worklist with _ | ⟨b, ws⟩
  · simp only [lstep, hwl]
    exact subset_rfl
  · simp only [lstep, hwl]
    split
    · exact scan_acc_mono _ _ _ _
    · exact scan_acc_mono _ _ _ _

theorem terminates_aux (g : LCFG) (R : Nat) (hwf : wfCFG g R) :
    ∀ (k : Nat) (st : LState), inv g R st → measureL g R st ≤ k →
      ∃ n, (iterateN g n st).worklist = [] := by
  intro k
  induction k with
  | zero =>
      intro st _ hm
      refine ⟨0, ?_⟩
      have hlen : st.worklist.length = 0 := by
        unfold measureL at hm
        omega
      simpa [iterateN] using List.length_eq_zero.mp hlen
  | succ k ih =>
      intro st hinv hm
      rcases hwl : st.worklist with _ | ⟨b, ws⟩
      · exact ⟨0, by simpa [iterateN] using hwl⟩
      · have hinv' := lstep_inv g R hwf st hinv
        have hb : b < g.nblocks :=
          hinv.1 b (by rw [hwl]; exact List.mem_cons_self b ws)
        have hdec : measureL g R (lstep g st) < measureL g R st := by
          rcases lstep_cases g st b ws hwl with ⟨h1, h2⟩ | ⟨h1, h2, h3⟩
          · unfold measureL
            rw [h1, h2, hwl]
            simp only [List.length_cons]
            omega
          · unfold measureL
            have hsum : (∑ x ∈ Finset.range g.nblocks,
                  (R - ((lstep g st).live x).card))
                < ∑ x ∈ Finset.range g.nblocks, (R - (st.live x).card) := by
              apply Finset.sum_lt_sum
              · intro i _
                by_cases hib : i = b
                · subst hib
                  have hc := Finset.card_lt_card h2
                  omega
                · rw [h3 i hib]
              · refine ⟨b, Finset.mem_range.mpr hb, ?_⟩
                have hc := Finset.card_lt_card h2
                have hcR : ((lstep g st).live b).card ≤ R := by
                  calc ((lstep g st).live b).card
                      ≤ (Finset.range R).card := Finset.card_le_card (hinv'.2 b)
                    _ = R := Finset.card_range R
                omega
            have hpb : (g.preds b).length ≤ maxPreds g := by
              unfold maxPreds
              exact Finset.le_sup (f := fun b => (g.preds b).length)
                (Finset.mem_range.mpr hb)
            have hlen : (lstep g st).worklist.length
                ≤ maxPreds g + ws.length := by
              rw [h1, List.length_append]
              omega
            have hX : (∑ x ∈ Finset.range g.nblocks,
                  (R - ((lstep g st).live x).card)) * (maxPreds g + 1)
                  + (maxPreds g + 1)
                ≤ (∑ x ∈ Finset.range g.nblocks,
                  (R - (st.live x).card)) * (maxPreds g + 1) := by
              have h5 : (∑ x ∈ Finset.range g.nblocks,
                  (R - ((lstep g st).live x).card)) + 1
                  ≤ ∑ x ∈ Finset.range g.nblocks, (R - (st.live x).card) :=
                hsum
              calc (∑ x ∈ Finset.range g.nblocks,
                    (R - ((lstep g st).live x).card)) * (maxPreds g + 1)
                    + (maxPreds g + 1)
                  = ((∑ x ∈ Finset.range g.nblocks,
                    (R - ((lstep g st).live x).card)) + 1) * (maxPreds g + 1) := by
                    ring
                _ ≤ _ := Nat.mul_le_mul_right _ h5
            rw [hwl]
            simp only [List.length_cons]
            omega
        obtain ⟨n, hn⟩ := ih (lstep g st) hinv' (by omega)
        exact ⟨n + 1, hn⟩

/-- Claim C7: the backward liveness fixpoint terminates on every finite
CFG whose used register ids are drawn from a finite domain: a popped
block's predecessors are re-pushed only when the block's stored live-in
strictly grows, and the worklist loop reaches the empty worklist after
finitely many iterations from the initial all-blocks worklist. -/
theorem C7_liveness_fixpoint_terminates (g : LCFG) (R : Nat)
    (hwf : wfCFG g R) :
    (∀ (st : LState) (b : Nat) (ws : List Nat), st.worklist = b :: ws →
      (lstep g st).worklist = ws ∨
      ((lstep g st).worklist = g.preds b ++ ws ∧
        st.live b ⊂ (lstep g st).live b)) ∧
    ∃ n, (iterateN g n (initState g)).worklist = [] := by
  constructor
  · intro st b ws hwl
    rcases lstep_cases g st b ws hwl with ⟨h1, _⟩ | ⟨h1, h2, _⟩
    · exact Or.inl h1
    · exact Or.inr ⟨h1, h2⟩
  · apply terminates_aux g R hwf (measureL g R (initState g)) _ ?_ le_rfl
    constructor
    · intro b hb
      simpa [initState] using hb
    · intro b
      intro x hx
      simp only [initState, Finset.not_mem_empty] at hx

/-- Witness for C7 at a concrete two-block CFG with register domain
bound 3. -/
theorem C7_witness :
    (∀ (st : LState) (b : Nat) (ws : List Nat), st.worklist = b :: ws →
      (lstep exampleCFG st).worklist = ws ∨
      ((lstep exampleCFG st).worklist = exampleCFG.preds b ++ ws ∧
        st.live b ⊂ (lstep exampleCFG st).live b)) ∧
    ∃ n, (iterateN exampleCFG n (initState exampleCFG)).worklist = [] :=
  C7_liveness_fixpoint_terminates exampleCFG 3 (by decide)

/-- Claim C8: anchor live-set accumulation is monotone.  Whenever the
backward scan reaches an instruction that tracks liveness, the current
running live set (after that instruction's def-removal and use-addition)
is unioned into that instruction's accumulated set; and across any number
of worklist iterations an accumulated set never loses a member. -/
theorem C8_anchor_accumulation_monotone (g : LCFG) :
    (∀ (i : Instr) (l : List Instr) (s : Finset Nat) (a : Nat → Finset Nat),
      i.tracksLiveness = true →
        transfer i s ⊆ (scan (i :: l) s a).2 i.id) ∧
    (∀ (st : LState) (n : Nat) (id : Nat),
      st.acc id ⊆ (iterateN g n st).acc id) := by
  constructor
  · intro i l s a ht
    simp only [scan, ht, if_pos]
    refine subset_trans ?_ (scan_acc_mono l (transfer i s) _ i.id)
    rw [Function.update_same]
    exact Finset.subset_union_right
  · intro st n
    induction n generalizing st with
    | zero =>
        intro id
        exact subset_rfl
    | succ n ih =>
        intro id
        exact subset_trans (lstep_acc_mono g st id) (ih (lstep g st) id)

/-- Witness for C8 at concrete inputs: a tracking instruction accumulates
the running set, and two fixpoint iterations never shrink an accumulated
set. -/
theorem C8_witness :
    transfer { id := 0, defs := [1], uses := [2], tracksLiveness := true }
        {1, 3}
      ⊆ (scan [{ id := 0, defs := [1], uses := [2], tracksLiveness := true }]
          {1, 3} (fun _ => ∅)).2 0 ∧
    (initState exampleCFG).acc 0
      ⊆ (iterateN exampleCFG 2 (initState exampleCFG)).acc 0 :=
  ⟨(C8_anchor_accumulation_monotone exampleCFG).1
      { id := 0, defs := [1], uses := [2], tracksLiveness := true } [] {1, 3}
      (fun _ => ∅) rfl,
   (C8_anchor_accumulation_monotone exampleCFG).2 (initState exampleCFG) 2 0⟩

end LivenessModel

namespace ElisionModel

/-- Claim C1: the elision decision of `process_access` for an access
resolved against a qualifying dominator (with the dominator-elimination
and safepoint-attached-barriers options enabled).  Zero discovered
safepoints ⇒ the access is marked DominatorElided.  One or more
safepoints with a concrete offset that fits the compact 16-bit encoding
and a non-derived access address ⇒ the access is marked
SafepointAttachedElided and exactly one record is attached per discovered
safepoint (the list is drained by popping).  Otherwise ⇒ bailout: the
barrier is retained (no elided marking) and the discovered list is
discarded. -/
theorem C1_process_access_decision (useDomOpt useSABOpt : Bool)
    (hDom : useDomOpt = true) (hSAB : useSABOpt = true)
    (acc : AccessInfo) (l : List SAR) :
    (l = [] →
      process_access useDomOpt useSABOpt acc l
        = { flags := mark_mach_barrier_dom_elided acc.flags, recorded := []
            assertViolated := false, finalList := [] }) ∧
    (l ≠ [] → acc.offsetUnknown = false → Int.fdiv acc.offsetVal 65536 = 0 →
      acc.inPtrOffset = 0 →
      process_access useDomOpt useSABOpt acc l
        = { flags := mark_mach_barrier_sab_elided acc.flags
            recorded := l.reverse
            assertViolated := false, finalList := [] }) ∧
    (l ≠ [] → ¬(acc.offsetUnknown = false ∧ Int.fdiv acc.offsetVal 65536 = 0 ∧
        acc.inPtrOffset = 0) →
      process_access useDomOpt useSABOpt acc l
        = { flags := acc.flags, recorded := []
            assertViolated := acc.flags.elided, finalList := [] }) ∧
    (∀ r : SAR, l.reverse.count r = l.count r) := by
  subst hDom hSAB
  refine ⟨?_, ?_, ?_, fun r => List.count_reverse r l⟩
  · intro hl
    subst hl
    simp [process_access]
  · intro hl h1 h2 h3
    have hlen : ¬ (l.length = 0) := by
      intro h
      exact hl (List.length_eq_zero.mp h)
    simp [process_access, hlen, h1, h2, h3, offset_is_short]
  · intro hl hcond
    have hlen : ¬ (l.length = 0) := by
      intro h
      exact hl (List.length_eq_zero.mp h)
    by_cases h1 : acc.offsetUnknown = false
    · by_cases h2 : Int.fdiv acc.offsetVal 65536 = 0
      · by_cases h3 : acc.inPtrOffset = 0
        · exact absurd ⟨h1, h2, h3⟩ hcond
        · simp [process_access, hlen, h1, h2, h3, offset_is_short]
      · simp [process_access, hlen, h1, h2, offset_is_short]
    · have h1' : acc.offsetUnknown = true := by
        revert h1
        cases acc.offsetUnknown <;> simp
      simp [process_access, hlen, h1', offset_is_short]

/-- Witness for C1 at concrete inputs: the three decision branches at
an access with offset 8 and one discovered safepoint. -/
theorem C1_witness :
    (process_access true true
        { flags := ⟨false, false, false⟩, offsetVal := 8
          offsetUnknown := false, inPtrOffset := 0 } []
      = { flags := mark_mach_barrier_dom_elided ⟨false, false, false⟩
          recorded := [], assertViolated := false, finalList := [] }) ∧
    (process_access true true
        { flags := ⟨false, false, false⟩, offsetVal := 8
          offsetUnknown := false, inPtrOffset := 0 } [⟨7, 3⟩]
      = { flags := mark_mach_barrier_sab_elided ⟨false, false, false⟩
          recorded := [⟨7, 3⟩], assertViolated := false, finalList := [] }) ∧
    (process_access true true
        { flags := ⟨false, false, false⟩, offsetVal := 8
          offsetUnknown := false, inPtrOffset := 4 } [⟨7, 3⟩]
      = { flags := ⟨false, false, false⟩, recorded := []
          assertViolated := false, finalList := [] }) :=
  ⟨(C1_process_access_decision true true rfl rfl _ []).1 rfl,
   (C1_process_access_decision true true rfl rfl _ [⟨7, 3⟩]).2.1
      (by decide) rfl (by decide) rfl,
   (C1_process_access_decision true true rfl rfl
      { flags := ⟨false, false, false⟩, offsetVal := 8
        offsetUnknown := false, inPtrOffset := 4 } [⟨7, 3⟩]).2.2.1
      (by decide) (by decide)⟩

/-- Claim C2 (refuted by the code): the candidate-dominator loop does
*not* stop after an access is resolved against a qualifying dominator.
At a concrete input with two qualifying dominators — the first walk
finding no safepoints (the access becomes DominatorElided), the second
finding one safepoint while the access address is derived — the loop runs
`process_access` a second time for the already-elided access and the
bailout marking's assertion (`!has_barrier_flag(ZBarrierElided)` in
`mark_mach_barrier_sab_bailout`) is violated; with a non-derived access
the second resolution even re-marks the already-elided access as
SafepointAttachedElided and attaches records for it. -/
theorem C2_second_dominator_still_processed :
    (domLoop true true
        { flags := ⟨false, false, false⟩, offsetVal := 8
          offsetUnknown := false, inPtrOffset := 4 }
        [⟨true, []⟩, ⟨true, [⟨5, 2⟩]⟩]).processCount = 2 ∧
    (domLoop true true
        { flags := ⟨false, false, false⟩, offsetVal := 8
          offsetUnknown := false, inPtrOffset := 4 }
        [⟨true, []⟩, ⟨true, [⟨5, 2⟩]⟩]).flags
      = ⟨true, true, false⟩ ∧
    (domLoop true true
        { flags := ⟨false, false, false⟩, offsetVal := 8
          offsetUnknown := false, inPtrOffset := 4 }
        [⟨true, []⟩, ⟨true, [⟨5, 2⟩]⟩]).assertViolated = true ∧
    (domLoop true true
        { flags := ⟨false, false, false⟩, offsetVal := 8
          offsetUnknown := false, inPtrOffset := 0 }
        [⟨true, []⟩, ⟨true, [⟨5, 2⟩]⟩]).flags
      = ⟨true, true, true⟩ ∧
    (domLoop true true
        { flags := ⟨false, false, false⟩, offsetVal := 8
          offsetUnknown := false, inPtrOffset := 0 }
        [⟨true, []⟩, ⟨true, [⟨5, 2⟩]⟩]).recorded = [⟨5, 2⟩] := by
  decide

end ElisionModel

namespace WalkModel

theorem chainSeq_shift (g : DefGraph) (start : Nat) :
    ∀ t, chainSeq g start (t + 1) = chainSeq g (g.input start) t := by
  intro t
  induction t with
  | zero => rfl
  | succ t ih =>
      show g.input (chainSeq g start (t + 1)) = g.input (chainSeq g (g.input start) t)
      rw [ih]

theorem chainWalk_eq (g : DefGraph) (dm : Option Nat) (fuel n : Nat) :
    chainWalk g dm fuel n =
      (if g.kind n = .phi then .reachedPhi n
       else if some n = dm then .reachedDom n
       else match next_def g n with
         | none => .fatalNextDef n
         | some n' =>
           match fuel with
           | 0 => .fatalLimit
           | fuel' + 1 => chainWalk g dm fuel' n') := by
  cases fuel with
  | zero =>
      cases hnd : next_def g n with
      | none => simp only [chainWalk, hnd]
      | some m => simp only [chainWalk, hnd]
  | succ f =>
      cases hnd : next_def g n with
      | none => simp only [chainWalk, hnd]
      | some m => simp only [chainWalk, hnd]

theorem chainWalk_reaches (g : DefGraph) (dm : Option Nat) :
    ∀ (j fuel start : Nat), j ≤ fuel →
      (∀ t, t < j → ¬ stops g dm (chainSeq g start t) ∧
        looksThrough g (chainSeq g start t)) →
      stops g dm (chainSeq g start j) →
      (chainWalk g dm fuel start = .reachedPhi (chainSeq g start j) ∨
       chainWalk g dm fuel start = .reachedDom (chainSeq g start j)) := by
  intro j
  induction j with
  | zero =>
      intro fuel start _ _ hstop
      simp only [chainSeq] at hstop ⊢
      by_cases hp : g.kind start = .phi
      · left
        rw [chainWalk_eq, if_pos hp]
      · right
        rcases hstop with hstop | hstop
        · exact absurd hstop hp
        · rw [chainWalk_eq, if_neg hp, if_pos hstop]
  | succ j ih =>
      intro fuel start hle hpre hstop
      obtain ⟨hns, hlt⟩ := hpre 0 (Nat.succ_pos j)
      simp only [chainSeq] at hns hlt
      have hnp : ¬ g.kind start = .phi := fun h => hns (Or.inl h)
      have hnd : ¬ some start = dm := fun h => hns (Or.inr h)
      obtain ⟨fuel', rfl⟩ : ∃ f, fuel = f + 1 := ⟨fuel - 1, by omega⟩
      have hnext : next_def g start = some (g.input start) := by
        rcases hlt with h | h <;> simp [next_def, h]
      have hw : chainWalk g dm (fuel' + 1) start
          = chainWalk g dm fuel' (g.input start) := by
        rw [chainWalk_eq, if_neg hnp, if_neg hnd, hnext]
      rw [hw]
      have hpre' : ∀ t, t < j → ¬ stops g dm (chainSeq g (g.input start) t) ∧
          looksThrough g (chainSeq g (g.input start) t) := by
        intro t ht
        rw [← chainSeq_shift]
        exact hpre (t + 1) (by omega)
      have hstop' : stops g dm (chainSeq g (g.input start) j) := by
        rw [← chainSeq_shift]
        exact hstop
      rcases ih fuel' (g.input start) (by omega) hpre' hstop' with h | h
      · left
        rw [chainSeq_shift g start j]
        exact h
      · right
        rw [chainSeq_shift g start j]
        exact h

theorem chainWalk_exhausts (g : DefGraph) (dm : Option Nat) :
    ∀ (fuel start : Nat),
      (∀ t, t ≤ fuel → ¬ stops g dm (chainSeq g start t) ∧
        looksThrough g (chainSeq g start t)) →
      chainWalk g dm fuel start = .fatalLimit := by
  intro fuel
  induction fuel with
  | zero =>
      intro start h
      obtain ⟨hns, hlt⟩ := h 0 le_rfl
      simp only [chainSeq] at hns hlt
      have hnp : ¬ g.kind start = .phi := fun hh => hns (Or.inl hh)
      have hnd : ¬ some start = dm := fun hh => hns (Or.inr hh)
      have hnext : next_def g start = some (g.input start) := by
        rcases hlt with hh | hh <;> simp [next_def, hh]
      rw [chainWalk_eq, if_neg hnp, if_neg hnd, hnext]
  | succ fuel ih =>
      intro start h
      obtain ⟨hns, hlt⟩ := h 0 (Nat.zero_le _)
      simp only [chainSeq] at hns hlt
      have hnp : ¬ g.kind start = .phi := fun hh => hns (Or.inl hh)
      have hnd : ¬ some start = dm := fun hh => hns (Or.inr hh)
      have hnext : next_def g start = some (g.input start) := by
        rcases hlt with hh | hh <;> simp [next_def, hh]
      have hw : chainWalk g dm (fuel + 1) start
          = chainWalk g dm fuel (g.input start) := by
        rw [chainWalk_eq, if_neg hnp, if_neg hnd, hnext]
      rw [hw]
      apply ih
      intro t ht
      rw [← chainSeq_shift]
      exact h (t + 1) (by omega)

/-- Claim C9: the address-definition chain walk is bounded by the hard
limit `MaxNodeLimit`.  The walk always ends in normal completion (an
allocation Phi or the dominator's definition) or in one of the two fatal
internal errors — there is no recoverable-failure outcome; on every
well-formed chain whose steps are copy/cast aliases and that reaches the
dominating definition or an allocation Phi within the bound, the walk
completes with no error; and when the chain neither stops nor leaves the
look-through kinds within the bound, the walk dies on the iteration
guarantee. -/
theorem C9_chain_walk_bounded (g : DefGraph) (dm : Option Nat) (start : Nat) :
    ((∃ n, walk g dm start = .reachedPhi n) ∨
     (∃ n, walk g dm start = .reachedDom n) ∨
     (∃ n, walk g dm start = .fatalNextDef n) ∨
     walk g dm start = .fatalLimit) ∧
    (∀ j, j < MaxNodeLimit →
      (∀ t, t < j → ¬ stops g dm (chainSeq g start t) ∧
        looksThrough g (chainSeq g start t)) →
      stops g dm (chainSeq g start j) →
      ((∃ n, walk g dm start = .reachedPhi n) ∨
       (∃ n, walk g dm start = .reachedDom n))) ∧
    ((∀ t, t < MaxNodeLimit → ¬ stops g dm (chainSeq g start t) ∧
        looksThrough g (chainSeq g start t)) →
      walk g dm start = .fatalLimit) := by
  have hM : MaxNodeLimit = 80000 := rfl
  unfold walk
  refine ⟨?_, ?_, ?_⟩
  · cases hw : chainWalk g dm (MaxNodeLimit - 1) start with
    | reachedPhi n => exact Or.inl ⟨n, rfl⟩
    | reachedDom n => exact Or.inr (Or.inl ⟨n, rfl⟩)
    | fatalNextDef n => exact Or.inr (Or.inr (Or.inl ⟨n, rfl⟩))
    | fatalLimit => exact Or.inr (Or.inr (Or.inr rfl))
  · intro j hj hpre hstop
    rcases chainWalk_reaches g dm j (MaxNodeLimit - 1) start (by omega)
        hpre hstop with h | h
    · exact Or.inl ⟨_, h⟩
    · exact Or.inr ⟨_, h⟩
  · intro h
    apply chainWalk_exhausts
    intro t ht
    exact h t (by omega)

/-- Witness for C9 at a concrete chain: two spill-copy steps followed by
an allocation Phi reach normal completion. -/
theorem C9_witness :
    (∃ n, walk
        { kind := fun n => if n < 2 then NodeKind.spillCopy else NodeKind.phi
          input := fun n => n + 1 } none 0 = .reachedPhi n) ∨
    (∃ n, walk
        { kind := fun n => if n < 2 then NodeKind.spillCopy else NodeKind.phi
          input := fun n => n + 1 } none 0 = .reachedDom n) :=
  (C9_chain_walk_bounded
      { kind := fun n => if n < 2 then NodeKind.spillCopy else NodeKind.phi
        input := fun n => n + 1 } none 0).2.1 2 (by decide) (by decide)
    (by decide)

end WalkModel
